import Mathlib

/-!
# Payroll engine (`src/src/main.cpp`, class `PayrollSystem`)

A shallow embedding of the payroll engine and a verification of its
specification.

Modelling conventions.

* `double` is modelled by `ℚ`: the engine's sums and products are exact.
  Where a property depends on the rounding of `double`, the operation is
  taken as a parameter (`recordWorkHoursWith`) and `binary64Add` is the
  rounded addition.
* `int` is modelled by `Int`; identifiers, months and years are only ever
  compared for equality, never computed with.
* `std::map<int, std::vector<PayrollRecord>>` is modelled by the partial
  function `Int → Option (List PayrollRecord)` it denotes. The engine never
  iterates over the map, it only looks keys up (`find`, `operator[]`).
* A reference or pointer to a record obtained from `ensureRecord` /
  `findRecord` always designates the first record of the employee's vector
  whose month and year match (`std::find_if`). Writing through it is
  `writeRecordIn`, which rewrites exactly that first match.
* The text printed on `std::cout` is modelled by a structured value carrying
  the branch taken and the numbers printed.
-/

namespace Payroll

/-- Adjustment mirrors `struct Adjustment`. -/
structure Adjustment where
  description : String
  amount : ℚ
deriving DecidableEq

/-- PayrollRecord mirrors `struct PayrollRecord`; the defaults are the member
initialisers, so `{ month := m, year := y }` is `PayrollRecord{m, y}`. -/
structure PayrollRecord where
  month : Int
  year : Int
  regularHours : ℚ := 0
  overtimeHours : ℚ := 0
  allowances : List Adjustment := []
  deductions : List Adjustment := []
  grossPay : ℚ := 0
  netPay : ℚ := 0
  finalized : Bool := false
deriving DecidableEq

/-- Employee mirrors `struct Employee`. -/
structure Employee where
  id : Int
  fullName : String
  position : String
  monthlySalary : ℚ
  hourlyRate : ℚ
  taxRate : ℚ
deriving DecidableEq

/-- PayrollSystem holds the two private members of the class. -/
structure PayrollSystem where
  employees_ : List Employee
  payroll_ : Int → Option (List PayrollRecord)

/-- The freshly constructed engine: no employee, empty map. -/
def PayrollSystem.empty : PayrollSystem :=
  { employees_ := [], payroll_ := fun _ => none }

/-- The predicate of the `std::find_if` calls over a vector of records:
`r.month == month && r.year == year`. -/
def samePeriod (month year : Int) (r : PayrollRecord) : Bool :=
  r.month == month && r.year == year

/-- Rewrites the first element satisfying `p` with `f` and leaves the list
as it is when there is none: a write through the iterator `std::find_if`
returned. -/
def modifyFirst {α : Type} (p : α → Bool) (f : α → α) : List α → List α
  | [] => []
  | r :: rs => if p r then f r :: rs else r :: modifyFirst p f rs

/-- Sum of the amounts, left to right from `0.0` (`std::accumulate`). -/
def accumulateAmounts (adjustments : List Adjustment) : ℚ :=
  adjustments.foldl (fun sum adj => sum + adj.amount) 0

/-- Lookup of `findEmployee`: first roster entry with the id, or `none` for
`nullptr`. -/
def findEmployeeIn (es : List Employee) (employeeId : Int) : Option Employee :=
  es.find? (fun employee => employee.id == employeeId)

/-- Lookup of `findEmployee` on an engine. -/
def findEmployee (s : PayrollSystem) (employeeId : Int) : Option Employee :=
  findEmployeeIn s.employees_ employeeId

/-- Lookup on the map alone, as in `findRecord` / `findRecordConst`: `none`
when the key is not in the map or no record of the vector has the period. -/
def findRecordIn (payroll : Int → Option (List PayrollRecord))
    (employeeId month year : Int) : Option PayrollRecord :=
  match payroll employeeId with
  | none => none
  | some records => records.find? (samePeriod month year)

/-- Lookup of `findRecord` on an engine. -/
def findRecord (s : PayrollSystem) (employeeId month year : Int) : Option PayrollRecord :=
  findRecordIn s.payroll_ employeeId month year

/-- Lookup of `findRecordConst`; same body as `findRecord`. -/
def findRecordConst (s : PayrollSystem) (employeeId month year : Int) : Option PayrollRecord :=
  findRecordIn s.payroll_ employeeId month year

/-- A write through the pointer or reference to the record of
`(employeeId, month, year)`: the first matching record of the vector is
replaced by its image under `f`. -/
def writeRecordIn (payroll : Int → Option (List PayrollRecord))
    (employeeId month year : Int) (f : PayrollRecord → PayrollRecord) :
    Int → Option (List PayrollRecord) :=
  match payroll employeeId with
  | none => payroll
  | some records =>
      Function.update payroll employeeId (some (modifyFirst (samePeriod month year) f records))

/-- The state change of `ensureRecord`: `payroll_[employeeId]` inserts an
empty vector when the key is new, and a fresh record is pushed at the back
when no record of the vector has the period. The reference it returns is the
first matching record of the resulting vector. -/
def ensureRecord (s : PayrollSystem) (employeeId month year : Int) : PayrollSystem :=
  let records := (s.payroll_ employeeId).getD []
  let records1 :=
    if records.any (samePeriod month year) then records
    else records ++ [{ month := month, year := year }]
  { s with payroll_ := Function.update s.payroll_ employeeId (some records1) }

/-- Registration: `employees_.push_back(employee)`. -/
def addEmployee (s : PayrollSystem) (employee : Employee) : PayrollSystem :=
  { s with employees_ := s.employees_ ++ [employee] }

/-- Hours are added to the record `ensureRecord` returns; the two sums are
exact (`recordWorkHoursWith` has the addition as a parameter). -/
def recordWorkHours (s : PayrollSystem) (employeeId month year : Int)
    (regularHours overtimeHours : ℚ) : PayrollSystem :=
  let s1 := ensureRecord s employeeId month year
  { s1 with payroll_ := writeRecordIn s1.payroll_ employeeId month year (fun record =>
      { record with regularHours := record.regularHours + regularHours,
                    overtimeHours := record.overtimeHours + overtimeHours }) }

/-- The allowance is pushed at the back of the record's allowance vector. -/
def addAllowance (s : PayrollSystem) (employeeId month year : Int)
    (allowance : Adjustment) : PayrollSystem :=
  let s1 := ensureRecord s employeeId month year
  { s1 with payroll_ := writeRecordIn s1.payroll_ employeeId month year (fun record =>
      { record with allowances := record.allowances ++ [allowance] }) }

/-- The deduction is pushed at the back of the record's deduction vector. -/
def addDeduction (s : PayrollSystem) (employeeId month year : Int)
    (deduction : Adjustment) : PayrollSystem :=
  let s1 := ensureRecord s employeeId month year
  { s1 with payroll_ := writeRecordIn s1.payroll_ employeeId month year (fun record =>
      { record with deductions := record.deductions ++ [deduction] }) }

/-- The local `gross` of `runPayroll`. -/
def grossOf (employee : Employee) (record : PayrollRecord) : ℚ :=
  employee.monthlySalary + record.regularHours * employee.hourlyRate
    + record.overtimeHours * employee.hourlyRate * (3 / 2)
    + accumulateAmounts record.allowances

/-- The local `tax` of `runPayroll`. -/
def taxOf (employee : Employee) (record : PayrollRecord) : ℚ :=
  grossOf employee record * employee.taxRate

/-- The local `net` of `runPayroll`. -/
def netOf (employee : Employee) (record : PayrollRecord) : ℚ :=
  grossOf employee record - taxOf employee record - accumulateAmounts record.deductions

/-- The three assignments at the end of the loop body of `runPayroll`. -/
def finalizeRecord (employee : Employee) (record : PayrollRecord) : PayrollRecord :=
  { record with grossPay := grossOf employee record,
                netPay := netOf employee record,
                finalized := true }

/-- What one iteration of `runPayroll` prints. -/
inductive PayrollOutcome where
  | noPayrollData (employee : Employee)
  | alreadyFinalized (employee : Employee)
  | computed (employee : Employee) (regularHours overtimeHours allowancesSum
      deductionsSum tax netPay : ℚ)
deriving DecidableEq

/-- One iteration of the loop of `runPayroll` for `employee`. -/
def runPayrollStep (month year : Int) (employee : Employee)
    (payroll : Int → Option (List PayrollRecord)) :
    (Int → Option (List PayrollRecord)) × PayrollOutcome :=
  match findRecordIn payroll employee.id month year with
  | none => (payroll, PayrollOutcome.noPayrollData employee)
  | some record =>
      if record.finalized then (payroll, PayrollOutcome.alreadyFinalized employee)
      else
        (writeRecordIn payroll employee.id month year (finalizeRecord employee),
         PayrollOutcome.computed employee record.regularHours record.overtimeHours
           (accumulateAmounts record.allowances) (accumulateAmounts record.deductions)
           (taxOf employee record) (netOf employee record))

/-- The loop of `runPayroll` over the roster, in roster order. -/
def runPayrollLoop (month year : Int) :
    List Employee → (Int → Option (List PayrollRecord)) →
      (Int → Option (List PayrollRecord)) × List PayrollOutcome
  | [], payroll => (payroll, [])
  | employee :: rest, payroll =>
      let r := runPayrollStep month year employee payroll
      let t := runPayrollLoop month year rest r.1
      (t.1, r.2 :: t.2)

/-- The engine after `runPayroll(month, year)` and the report it prints. -/
def runPayroll (s : PayrollSystem) (month year : Int) : PayrollSystem × List PayrollOutcome :=
  let t := runPayrollLoop month year s.employees_ s.payroll_
  ({ s with payroll_ := t.1 }, t.2)

/-- The numbers a payslip shows. -/
structure Payslip where
  fullName : String
  position : String
  monthlySalary : ℚ
  regularHours : ℚ
  overtimeHours : ℚ
  allowancesSum : ℚ
  deductionsSum : ℚ
  tax : ℚ
  netPay : ℚ
deriving DecidableEq

/-- What `printPayslip` prints. -/
inductive PayslipResult where
  | employeeNotFound
  | notFinalized
  | payslip (view : Payslip)
deriving DecidableEq

/-- The method `printPayslip`; it is `const`, so it only yields a result. -/
def printPayslip (s : PayrollSystem) (employeeId month year : Int) : PayslipResult :=
  match findEmployee s employeeId with
  | none => PayslipResult.employeeNotFound
  | some employee =>
      match findRecordConst s employeeId month year with
      | none => PayslipResult.notFinalized
      | some record =>
          if !record.finalized then PayslipResult.notFinalized
          else
            PayslipResult.payslip
              { fullName := employee.fullName,
                position := employee.position,
                monthlySalary := employee.monthlySalary,
                regularHours := record.regularHours,
                overtimeHours := record.overtimeHours,
                allowancesSum := accumulateAmounts record.allowances,
                deductionsSum := accumulateAmounts record.deductions,
                tax := (employee.monthlySalary + record.regularHours * employee.hourlyRate
                          + record.overtimeHours * employee.hourlyRate * (3 / 2)
                          + accumulateAmounts record.allowances) * employee.taxRate,
                netPay := record.netPay }

/-- The six operations of the engine, with their arguments. -/
inductive Op where
  | addEmployee (employee : Employee)
  | recordWorkHours (employeeId month year : Int) (regularHours overtimeHours : ℚ)
  | addAllowance (employeeId month year : Int) (allowance : Adjustment)
  | addDeduction (employeeId month year : Int) (deduction : Adjustment)
  | runPayroll (month year : Int)
  | printPayslip (employeeId month year : Int)

/-- The engine after one operation. -/
def applyOp (s : PayrollSystem) : Op → PayrollSystem
  | Op.addEmployee employee => addEmployee s employee
  | Op.recordWorkHours employeeId month year r o => recordWorkHours s employeeId month year r o
  | Op.addAllowance employeeId month year a => addAllowance s employeeId month year a
  | Op.addDeduction employeeId month year d => addDeduction s employeeId month year d
  | Op.runPayroll month year => (runPayroll s month year).1
  | Op.printPayslip _ _ _ => s

/-- The engine after a sequence of operations, from the empty engine. -/
def runOps (ops : List Op) : PayrollSystem :=
  ops.foldl applyOp PayrollSystem.empty

/-- States reachable from the empty engine. -/
def Reachable (s : PayrollSystem) : Prop :=
  ∃ ops : List Op, s = runOps ops

/-- The effect of one loop iteration on a record: nothing when it is already
finalized, the three assignments otherwise. -/
def finalizeOnce (employee : Employee) (record : PayrollRecord) : PayrollRecord :=
  if record.finalized then record else finalizeRecord employee record

/-- The employee of the pay-formula scenario. -/
def scenarioEmployee : Employee :=
  { id := 1, fullName := "Ivan Petrenko", position := "Accountant",
    monthlySalary := 18000, hourlyRate := 150, taxRate := 195 / 1000 }

/-- The engine of the pay-formula scenario, before `runPayroll(5, 2024)`. -/
def scenarioState : PayrollSystem :=
  addDeduction
    (addAllowance
      (recordWorkHours (addEmployee PayrollSystem.empty scenarioEmployee) 1 5 2024 160 10)
      1 5 2024 { description := "bonus", amount := 500 })
    1 5 2024 { description := "fine", amount := 200 }

/-- The record of the scenario before `runPayroll(5, 2024)`. -/
def scenarioRecord : PayrollRecord :=
  { month := 5, year := 2024, regularHours := 160, overtimeHours := 10,
    allowances := [{ description := "bonus", amount := 500 }],
    deductions := [{ description := "fine", amount := 200 }] }

/-- The find-or-create of `ensureRecord` followed by a write of `f` through
the reference it returns; the three accumulation operations have this shape. -/
def accumulate (s : PayrollSystem) (employeeId month year : Int)
    (f : PayrollRecord → PayrollRecord) : PayrollSystem :=
  let s1 := ensureRecord s employeeId month year
  { s1 with payroll_ := writeRecordIn s1.payroll_ employeeId month year f }

/-- The vector of an employee after an accumulation on `(month, year)`. -/
def upsert (month year : Int) (f : PayrollRecord → PayrollRecord)
    (records : List PayrollRecord) : List PayrollRecord :=
  match records.find? (samePeriod month year) with
  | some _ => modifyFirst (samePeriod month year) f records
  | none => records ++ [f { month := month, year := year }]

/-- A state in which hours were recorded after the period was finalized. -/
def lateEditState : PayrollSystem :=
  runOps [Op.addEmployee scenarioEmployee, Op.recordWorkHours 1 5 2024 160 10,
    Op.runPayroll 5 2024, Op.recordWorkHours 1 5 2024 1 0]

/-- The line `runPayroll` prints for an employee it computes nothing for. -/
def skipOutcome (payroll : Int → Option (List PayrollRecord)) (month year : Int)
    (employee : Employee) : PayrollOutcome :=
  if (findRecordIn payroll employee.id month year).isSome then
    PayrollOutcome.alreadyFinalized employee
  else PayrollOutcome.noPayrollData employee

/-- The record `r2` has the period of `r`, is finalized, and carries the
`grossPay` and `netPay` of `r`. -/
def keepsFinalPay (r r2 : PayrollRecord) : Prop :=
  r2.month = r.month ∧ r2.year = r.year ∧ r2.finalized = true
    ∧ r2.grossPay = r.grossPay ∧ r2.netPay = r.netPay

/-- The record of the scenario after `runPayroll(5, 2024)`. -/
def scenarioFinalRecord : PayrollRecord :=
  { scenarioRecord with grossPay := 44750, netPay := 3582375 / 100, finalized := true }

/-- The engine after one `recordWorkHours` call on the key per delta, in
order. -/
def recordAll (s : PayrollSystem) (employeeId month year : Int)
    (deltas : List (ℚ × ℚ)) : PayrollSystem :=
  deltas.foldl (fun st d => recordWorkHours st employeeId month year d.1 d.2) s

/-- The record `r` with `a` added to its regular and `b` to its overtime
hours, every other field kept. -/
def withHoursAdded (r : PayrollRecord) (a b : ℚ) : PayrollRecord :=
  { r with regularHours := r.regularHours + a, overtimeHours := r.overtimeHours + b }

/-- A roster of one employee and hours recorded for 6/2024 only. -/
def otherPeriodState : PayrollSystem :=
  recordWorkHours (addEmployee PayrollSystem.empty scenarioEmployee) 1 6 2024 8 0

/-- The period of a record, the part of its key held in the record. -/
def periodOf (r : PayrollRecord) : Int × Int := (r.month, r.year)

/-- No two records of any employee's vector have the same month and year. -/
def KeysUnique (s : PayrollSystem) : Prop :=
  ∀ (id : Int) (rs : List PayrollRecord), s.payroll_ id = some rs → (rs.map periodOf).Nodup

/-- From `s` to `s2` exactly one record was created: `r`, at the back of the
vector of `id` (a new vector when the map had no such key); the roster and
the vectors of the other ids are what they were. -/
def CreatesExactly (s s2 : PayrollSystem) (id : Int) (r : PayrollRecord) : Prop :=
  s2.employees_ = s.employees_
    ∧ s2.payroll_ id = some ((s.payroll_ id).getD [] ++ [r])
    ∧ ∀ k, k ≠ id → s2.payroll_ k = s.payroll_ k

/-- From `s` to `s2` no record was created: the map has the same keys and
every vector has the length it had; the roster is what it was. -/
def CreatesNone (s s2 : PayrollSystem) : Prop :=
  s2.employees_ = s.employees_
    ∧ ∀ k, (s2.payroll_ k).map List.length = (s.payroll_ k).map List.length

/-- One adjustment call on a key: an allowance or a deduction. -/
inductive AdjustmentCall where
  | allowance (a : Adjustment)
  | deduction (d : Adjustment)

/-- The engine after one adjustment call on the key. -/
def applyAdjustment (employeeId month year : Int) (s : PayrollSystem) :
    AdjustmentCall → PayrollSystem
  | AdjustmentCall.allowance a => addAllowance s employeeId month year a
  | AdjustmentCall.deduction d => addDeduction s employeeId month year d

/-- The engine after the adjustment calls on the key, in order. -/
def applyAdjustments (s : PayrollSystem) (employeeId month year : Int)
    (calls : List AdjustmentCall) : PayrollSystem :=
  calls.foldl (applyAdjustment employeeId month year) s

/-- The totals of a record: sum of allowances, sum of deductions, gross and
net pay. -/
def payTotals (r : PayrollRecord) : ℚ × ℚ × ℚ × ℚ :=
  (accumulateAmounts r.allowances, accumulateAmounts r.deductions, r.grossPay, r.netPay)

/-- Two records that differ at most in the order of their adjustment lists. -/
def RecEquiv (r1 r2 : PayrollRecord) : Prop :=
  r1.month = r2.month ∧ r1.year = r2.year ∧ r1.regularHours = r2.regularHours
    ∧ r1.overtimeHours = r2.overtimeHours ∧ r1.allowances.Perm r2.allowances
    ∧ r1.deductions.Perm r2.deductions ∧ r1.grossPay = r2.grossPay
    ∧ r1.netPay = r2.netPay ∧ r1.finalized = r2.finalized

/-- Two maps with the same keys whose vectors agree record by record up to
the order of the adjustment lists. -/
def MapEquiv (p1 p2 : Int → Option (List PayrollRecord)) : Prop :=
  ∀ k, (p1 k = none ∧ p2 k = none)
    ∨ ∃ rs1 rs2, p1 k = some rs1 ∧ p2 k = some rs2 ∧ List.Forall₂ RecEquiv rs1 rs2

/-- Two engines with the same roster and equivalent maps. -/
def SysEquiv (s1 s2 : PayrollSystem) : Prop :=
  s1.employees_ = s2.employees_ ∧ MapEquiv s1.payroll_ s2.payroll_

/-- A roster of one employee and no record. -/
def rosterOnlyState : PayrollSystem :=
  addEmployee PayrollSystem.empty scenarioEmployee

/-- Allowances of 100 then 250. -/
def allowances100Then250 : List AdjustmentCall :=
  [AdjustmentCall.allowance { description := "a", amount := 100 },
   AdjustmentCall.allowance { description := "b", amount := 250 }]

/-- Allowances of 250 then 100. -/
def allowances250Then100 : List AdjustmentCall :=
  [AdjustmentCall.allowance { description := "b", amount := 250 },
   AdjustmentCall.allowance { description := "a", amount := 100 }]

/-- No record of the engine for the period `(m, y)` is finalized. -/
def PeriodOpen (m y : Int) (s : PayrollSystem) : Prop :=
  ∀ (id : Int) (rs : List PayrollRecord) (r : PayrollRecord),
    s.payroll_ id = some rs → r ∈ rs → r.month = m → r.year = y → r.finalized = false

/-- A sequence without a `runPayroll` for 5/2024: hours and an allowance are
accumulated, payroll is run for 6/2024, a payslip is asked for. -/
def noRunOps : List Op :=
  [Op.addEmployee scenarioEmployee, Op.recordWorkHours 1 5 2024 160 10,
   Op.addAllowance 1 5 2024 { description := "bonus", amount := 500 },
   Op.recordWorkHours 1 6 2024 8 0, Op.runPayroll 6 2024, Op.printPayslip 1 5 2024]

/-- A second employee registered under the id of the scenario employee, with
another salary. -/
def scenarioEmployeeTwin : Employee :=
  { id := 1, fullName := "Ivan Petrenko II", position := "Auditor",
    monthlySalary := 20000, hourlyRate := 150, taxRate := 195 / 1000 }

/-- The second default employee of `main`. -/
def secondEmployee : Employee :=
  { id := 2, fullName := "Olena Sydorenko", position := "Developer",
    monthlySalary := 32000, hourlyRate := 250, taxRate := 195 / 1000 }

/-- Two entries with id 1, the scenario employee first, and hours for
5/2024. -/
def twinFirstState : PayrollSystem :=
  runOps [Op.addEmployee scenarioEmployee, Op.addEmployee scenarioEmployeeTwin,
    Op.recordWorkHours 1 5 2024 160 10]

/-- The same ledger with the two entries registered in the other order. -/
def twinLastState : PayrollSystem :=
  runOps [Op.addEmployee scenarioEmployeeTwin, Op.addEmployee scenarioEmployee,
    Op.recordWorkHours 1 5 2024 160 10]

/-- Employees 1 and 2 registered in this order, hours for employee 1. -/
def pairState : PayrollSystem :=
  runOps [Op.addEmployee scenarioEmployee, Op.addEmployee secondEmployee,
    Op.recordWorkHours 1 5 2024 160 10]

/-- Employees 2 and 1 registered in this order, the same ledger. -/
def pairSwappedState : PayrollSystem :=
  runOps [Op.addEmployee secondEmployee, Op.addEmployee scenarioEmployee,
    Op.recordWorkHours 1 5 2024 160 10]

/-- Every finalized record is stored under the id of some roster entry. -/
def FinalizedRegistered (s : PayrollSystem) : Prop :=
  ∀ (id : Int) (rs : List PayrollRecord) (r : PayrollRecord),
    s.payroll_ id = some rs → r ∈ rs → r.finalized = true → ∃ e ∈ s.employees_, e.id = id

/-- From `s` to `s2` only the record of `(id, m, y)` changed, and it became
the image under `f` of what it was (of the fresh record when there was
none): the roster, the vectors of the other ids, the records of the other
keys and the records of other periods at every position of the vector of
`id` are what they were. -/
def AccumulationFrame (s s2 : PayrollSystem) (id m y : Int)
    (f : PayrollRecord → PayrollRecord) : Prop :=
  s2.employees_ = s.employees_
    ∧ (∀ k : Int, k ≠ id → s2.payroll_ k = s.payroll_ k)
    ∧ (∀ k m2 y2 : Int, ¬ (k = id ∧ m2 = m ∧ y2 = y) →
        findRecord s2 k m2 y2 = findRecord s k m2 y2)
    ∧ (∀ (rs : List PayrollRecord) (i : Nat) (r : PayrollRecord),
        s.payroll_ id = some rs → rs[i]? = some r → ¬ (r.month = m ∧ r.year = y) →
          ∃ rs2, s2.payroll_ id = some rs2 ∧ rs2[i]? = some r)
    ∧ findRecord s2 id m y = some (f ((findRecord s id m y).getD { month := m, year := y }))

/-- The record `r` with the allowance `a` pushed at the back of its
allowance list, every other field kept. -/
def withAllowance (r : PayrollRecord) (a : Adjustment) : PayrollRecord :=
  { r with allowances := r.allowances ++ [a] }

/-- The record `r` with the deduction `d` pushed at the back of its
deduction list, every other field kept. -/
def withDeduction (r : PayrollRecord) (d : Adjustment) : PayrollRecord :=
  { r with deductions := r.deductions ++ [d] }

/-- What `runPayroll(m, y)` may do to one record: period, hours and
adjustment lists are kept, and the record is changed at all only when it is
a record of the period that was not finalized. -/
def RunPayrollFrame (m y : Int) (r r2 : PayrollRecord) : Prop :=
  r2.month = r.month ∧ r2.year = r.year ∧ r2.regularHours = r.regularHours
    ∧ r2.overtimeHours = r.overtimeHours ∧ r2.allowances = r.allowances
    ∧ r2.deductions = r.deductions
    ∧ (r2 ≠ r → r.month = m ∧ r.year = y ∧ r.finalized = false)

/-- An employee without tax and a record whose deduction exceeds the pay. -/
def lowPayEmployee : Employee :=
  { id := 3, fullName := "Taras", position := "Intern",
    monthlySalary := 100, hourlyRate := 0, taxRate := 0 }

/-- A record with one deduction of 200 and nothing else. -/
def highDeductionRecord : PayrollRecord :=
  { month := 5, year := 2024, deductions := [{ description := "advance", amount := 200 }] }

/-- Nearest integer to `q`, the even one of the two when `q` lies halfway. -/
def roundHalfEven (q : ℚ) : Int :=
  if q - Int.floor q < 1 / 2 then Int.floor q
  else if 1 / 2 < q - Int.floor q then Int.floor q + 1
  else if Int.floor q % 2 = 0 then Int.floor q
  else Int.floor q + 1

/-- Exponent of the last significant bit of the binary64 nearest to `q`: 53
significant bits, and never below the subnormal exponent −1074. -/
def binary64Exponent (q : ℚ) : Int :=
  max (Int.log 2 |q| - 52) (-1074)

/-- The IEEE 754 binary64 value nearest to `q`, ties to even: what a `double`
holds after an operation whose exact result is `q`. Results of magnitude
2^1024 and beyond, which a `double` holds as an infinity, are outside this
model. -/
def roundBinary64 (q : ℚ) : ℚ :=
  (roundHalfEven (q / 2 ^ binary64Exponent q) : ℚ) * 2 ^ binary64Exponent q

/-- Addition of two `double`s: the exact sum, rounded. -/
def binary64Add (a b : ℚ) : ℚ :=
  roundBinary64 (a + b)

/-- The method `recordWorkHours` with `add` for the `+=` on the two hour
fields. -/
def recordWorkHoursWith (add : ℚ → ℚ → ℚ) (s : PayrollSystem) (employeeId month year : Int)
    (regularHours overtimeHours : ℚ) : PayrollSystem :=
  let s1 := ensureRecord s employeeId month year
  { s1 with payroll_ := writeRecordIn s1.payroll_ employeeId month year (fun record =>
      { record with regularHours := add record.regularHours regularHours,
                    overtimeHours := add record.overtimeHours overtimeHours }) }

/-- The engine after one `recordWorkHours` call on the key per delta, in
order, with `add` for the `+=`. -/
def recordAllWith (add : ℚ → ℚ → ℚ) (s : PayrollSystem) (employeeId month year : Int)
    (deltas : List (ℚ × ℚ)) : PayrollSystem :=
  deltas.foldl (fun st d => recordWorkHoursWith add st employeeId month year d.1 d.2) s

/-- The record of the key before the calls, the fresh record of the period
when the key has none. -/
def priorRecord (s : PayrollSystem) (employeeId month year : Int) : PayrollRecord :=
  (findRecord s employeeId month year).getD { month := month, year := year }

/-- The record `r` with its two hour fields replaced. -/
def withHours (r : PayrollRecord) (regularHours overtimeHours : ℚ) : PayrollRecord :=
  { r with regularHours := regularHours, overtimeHours := overtimeHours }

/-! ## Auxiliary facts about the list primitives -/

theorem modifyFirst_length {α : Type} (p : α → Bool) (f : α → α) (rs : List α) :
    (modifyFirst p f rs).length = rs.length := by
  induction rs with
  | nil => rfl
  | cons r rs ih =>
    by_cases h : p r <;> simp [modifyFirst, h, ih]

theorem find_modifyFirst {α : Type} (p : α → Bool) (f : α → α)
    (hp : ∀ r, p (f r) = p r) (rs : List α) :
    (modifyFirst p f rs).find? p = (rs.find? p).map f := by
  induction rs with
  | nil => rfl
  | cons r rs ih =>
    by_cases h : p r
    · simp [modifyFirst, h, hp]
    · simp [modifyFirst, h, ih]

theorem find_modifyFirst_other {α : Type} (p q : α → Bool) (f : α → α)
    (hq : ∀ r, q (f r) = q r) (hpq : ∀ r, p r = true → q r = false) (rs : List α) :
    (modifyFirst p f rs).find? q = rs.find? q := by
  induction rs with
  | nil => rfl
  | cons r rs ih =>
    by_cases h : p r
    · have h1 := hpq r h
      have h2 : q (f r) = false := by rw [hq, h1]
      simp [modifyFirst, h, h1, h2]
    · by_cases h3 : q r <;> simp [modifyFirst, h, ih, h3]

theorem modifyFirst_eq_self {α : Type} (p : α → Bool) (f : α → α) (rs : List α)
    (h : ∀ r, rs.find? p = some r → f r = r) : modifyFirst p f rs = rs := by
  induction rs with
  | nil => rfl
  | cons r rs ih =>
    by_cases hr : p r
    · have := h r (by simp [hr])
      simp [modifyFirst, hr, this]
    · have h2 : ∀ r0, rs.find? p = some r0 → f r0 = r0 := by
        intro r0 h0
        apply h
        simp [hr, h0]
      simp [modifyFirst, hr, ih h2]

theorem modifyFirst_modifyFirst {α : Type} (p : α → Bool) (f g : α → α)
    (hp : ∀ r, p (f r) = p r) (rs : List α) :
    modifyFirst p g (modifyFirst p f rs) = modifyFirst p (fun r => g (f r)) rs := by
  induction rs with
  | nil => rfl
  | cons r rs ih =>
    by_cases h : p r
    · simp [modifyFirst, h, hp]
    · simp [modifyFirst, h, ih]

theorem getElem_modifyFirst {α : Type} (p : α → Bool) (f : α → α) (rs : List α) (i : Nat) :
    (modifyFirst p f rs)[i]? = rs[i]? ∨
      ∃ r, rs[i]? = some r ∧ rs.find? p = some r ∧ (modifyFirst p f rs)[i]? = some (f r) := by
  induction rs generalizing i with
  | nil => left; rfl
  | cons r rs ih =>
    by_cases h : p r
    · cases i with
      | zero => right; exact ⟨r, by simp [modifyFirst, h]⟩
      | succ i => left; simp [modifyFirst, h]
    · cases i with
      | zero => left; simp [modifyFirst, h]
      | succ i =>
        rcases ih i with h1 | ⟨r0, h1, h2, h3⟩
        · left; simpa [modifyFirst, h] using h1
        · right; exact ⟨r0, by simpa using h1, by simp [h, h2], by simpa [modifyFirst, h] using h3⟩

theorem mem_modifyFirst {α : Type} (p : α → Bool) (f : α → α) (rs : List α) (x : α)
    (hx : x ∈ modifyFirst p f rs) :
    x ∈ rs ∨ ∃ r, rs.find? p = some r ∧ x = f r := by
  induction rs with
  | nil => simp [modifyFirst] at hx
  | cons r rs ih =>
    cases h : p r
    · simp [modifyFirst, h] at hx
      rcases hx with h1 | h1
      · left; simp [h1]
      · rcases ih h1 with h2 | ⟨r0, h2, h3⟩
        · left; simp [h2]
        · right; exact ⟨r0, by simp [h, h2], h3⟩
    · simp [modifyFirst, h] at hx
      rcases hx with h1 | h1
      · right; exact ⟨r, by simp [h], h1⟩
      · left; simp [h1]

theorem accumulateAmounts_eq_sum (l : List Adjustment) :
    accumulateAmounts l = (l.map (fun a => a.amount)).sum := by
  have h : ∀ (l : List Adjustment) (acc : ℚ),
      l.foldl (fun sum adj => sum + adj.amount) acc = acc + (l.map (fun a => a.amount)).sum := by
    intro l
    induction l with
    | nil => intro acc; simp
    | cons a l ih => intro acc; simp [ih, add_assoc]
  simpa [accumulateAmounts] using h l 0

/-! ## The loop of `runPayroll` in closed form -/

theorem samePeriod_iff (m y : Int) (r : PayrollRecord) :
    samePeriod m y r = true ↔ r.month = m ∧ r.year = y := by
  simp [samePeriod]

theorem writeRecordIn_apply (p : Int → Option (List PayrollRecord)) (id m y : Int)
    (f : PayrollRecord → PayrollRecord) (k : Int) :
    writeRecordIn p id m y f k
      = if k = id then (p k).map (modifyFirst (samePeriod m y) f) else p k := by
  unfold writeRecordIn
  by_cases hk : k = id
  · subst hk
    cases h : p k <;> simp [h]
  · cases h : p id <;> simp [h, hk, Function.update_noteq hk]

theorem samePeriod_finalizeOnce (m y : Int) (e : Employee) (r : PayrollRecord) :
    samePeriod m y (finalizeOnce e r) = samePeriod m y r := by
  unfold finalizeOnce finalizeRecord samePeriod
  split <;> rfl

theorem finalizeOnce_finalized (e : Employee) (r : PayrollRecord) :
    (finalizeOnce e r).finalized = true := by
  unfold finalizeOnce finalizeRecord
  split
  · assumption
  · rfl

theorem finalizeOnce_of_finalized (e : Employee) (r : PayrollRecord) (h : r.finalized = true) :
    finalizeOnce e r = r := by
  simp [finalizeOnce, h]

theorem finalizeOnce_finalizeOnce (e1 e2 : Employee) (r : PayrollRecord) :
    finalizeOnce e2 (finalizeOnce e1 r) = finalizeOnce e1 r :=
  finalizeOnce_of_finalized e2 _ (finalizeOnce_finalized e1 r)

theorem modifyFirst_congr {α : Type} (p : α → Bool) (f g : α → α) (rs : List α)
    (h : ∀ r, rs.find? p = some r → f r = g r) : modifyFirst p f rs = modifyFirst p g rs := by
  induction rs with
  | nil => rfl
  | cons r rs ih =>
    cases hr : p r
    · have h2 : ∀ r0, rs.find? p = some r0 → f r0 = g r0 := by
        intro r0 h0
        apply h
        simp [hr, h0]
      simp [modifyFirst, hr, ih h2]
    · have := h r (by simp [hr])
      simp [modifyFirst, hr, this]

theorem writeRecordIn_congr (p : Int → Option (List PayrollRecord)) (id m y : Int)
    (f g : PayrollRecord → PayrollRecord)
    (h : ∀ r, findRecordIn p id m y = some r → f r = g r) :
    writeRecordIn p id m y f = writeRecordIn p id m y g := by
  unfold writeRecordIn
  unfold findRecordIn at h
  cases hp : p id with
  | none => rfl
  | some rs =>
    rw [hp] at h
    simp only at h
    simp only
    rw [modifyFirst_congr _ f g rs h]

theorem writeRecordIn_self (p : Int → Option (List PayrollRecord)) (id m y : Int)
    (f : PayrollRecord → PayrollRecord)
    (h : ∀ r, findRecordIn p id m y = some r → f r = r) :
    writeRecordIn p id m y f = p := by
  unfold writeRecordIn
  unfold findRecordIn at h
  cases hp : p id with
  | none => rfl
  | some rs =>
    rw [hp] at h
    simp only at h
    simp only
    rw [modifyFirst_eq_self _ f rs h, ← hp, Function.update_eq_self]

theorem runPayrollStep_fst (m y : Int) (e : Employee) (p : Int → Option (List PayrollRecord)) :
    (runPayrollStep m y e p).1 = writeRecordIn p e.id m y (finalizeOnce e) := by
  unfold runPayrollStep
  cases hf : findRecordIn p e.id m y with
  | none =>
    simp only
    rw [writeRecordIn_self]
    intro r hr
    rw [hf] at hr
    cases hr
  | some r =>
    simp only
    cases hfin : r.finalized
    · simp only [Bool.false_eq_true, if_false]
      apply writeRecordIn_congr
      intro r0 hr
      rw [hf] at hr
      cases hr
      simp [finalizeOnce, hfin]
    · simp only [if_true]
      rw [writeRecordIn_self]
      intro r0 hr
      rw [hf] at hr
      cases hr
      exact finalizeOnce_of_finalized e r hfin

theorem runPayrollLoop_fst (m y : Int) (es : List Employee)
    (p : Int → Option (List PayrollRecord)) (k : Int) :
    (runPayrollLoop m y es p).1 k
      = match findEmployeeIn es k with
        | none => p k
        | some e => (p k).map (modifyFirst (samePeriod m y) (finalizeOnce e)) := by
  induction es generalizing p with
  | nil => rfl
  | cons e es ih =>
    simp only [runPayrollLoop]
    rw [ih, runPayrollStep_fst, writeRecordIn_apply]
    unfold findEmployeeIn
    by_cases hk : k = e.id
    · subst hk
      simp only [if_true, List.find?_cons, beq_self_eq_true]
      cases hfw : List.find? (fun employee => employee.id == e.id) es with
      | none => rfl
      | some e2 =>
        simp only [Option.map_map]
        congr 1
        funext rs
        simp only [Function.comp]
        rw [modifyFirst_modifyFirst _ _ _ (samePeriod_finalizeOnce m y e)]
        apply modifyFirst_congr
        intro r _
        exact finalizeOnce_finalizeOnce e e2 r
    · have hne : (e.id == k) = false := by
        simp
        exact fun h => hk h.symm
      simp only [hk, if_false, List.find?_cons, hne]

/-! ## C1: the pay formula -/

theorem findRecordIn_loop (m y : Int) (es : List Employee)
    (p : Int → Option (List PayrollRecord)) (k : Int) :
    findRecordIn (runPayrollLoop m y es p).1 k m y
      = match findEmployeeIn es k with
        | none => findRecordIn p k m y
        | some e => (findRecordIn p k m y).map (finalizeOnce e) := by
  unfold findRecordIn
  rw [runPayrollLoop_fst]
  cases findEmployeeIn es k with
  | none => rfl
  | some e =>
    cases p k with
    | none => rfl
    | some rs =>
      simp only [Option.map_some']
      exact find_modifyFirst _ _ (samePeriod_finalizeOnce m y e) rs

/-- C1: when `e` is the first roster entry with its id and the record of
`(e.id, m, y)` exists and is not finalized, `runPayroll(m, y)` leaves that
record finalized with `grossPay` = salary + regular hours × rate + overtime
hours × rate × 1.5 + sum of the allowance amounts and `netPay` = gross −
gross × tax rate − sum of the deduction amounts; its other fields are kept. -/
theorem runPayroll_computes_pay (s : PayrollSystem) (m y : Int) (e : Employee)
    (r : PayrollRecord)
    (he : findEmployee s e.id = some e)
    (hr : findRecord s e.id m y = some r)
    (hfin : r.finalized = false) :
    findRecord (runPayroll s m y).1 e.id m y
      = some { r with
          grossPay := e.monthlySalary + r.regularHours * e.hourlyRate
            + r.overtimeHours * e.hourlyRate * (3 / 2)
            + (r.allowances.map (fun a => a.amount)).sum,
          netPay := (e.monthlySalary + r.regularHours * e.hourlyRate
              + r.overtimeHours * e.hourlyRate * (3 / 2)
              + (r.allowances.map (fun a => a.amount)).sum)
            - (e.monthlySalary + r.regularHours * e.hourlyRate
              + r.overtimeHours * e.hourlyRate * (3 / 2)
              + (r.allowances.map (fun a => a.amount)).sum) * e.taxRate
            - (r.deductions.map (fun a => a.amount)).sum,
          finalized := true } := by
  unfold findRecord findEmployee at *
  unfold runPayroll
  simp only
  rw [findRecordIn_loop, he, hr]
  simp only [Option.map_some', finalizeOnce, hfin, Bool.false_eq_true, if_false, finalizeRecord,
    grossOf, netOf, taxOf, accumulateAmounts_eq_sum]

theorem scenarioState_findEmployee :
    findEmployee scenarioState 1 = some scenarioEmployee := by
  simp [findEmployee, findEmployeeIn, scenarioState, scenarioEmployee, addDeduction,
    addAllowance, recordWorkHours, addEmployee, ensureRecord, PayrollSystem.empty]

theorem scenarioState_findRecord :
    findRecord scenarioState 1 5 2024 = some scenarioRecord := by
  simp [findRecord, findRecordIn, scenarioState, scenarioEmployee, addDeduction,
    addAllowance, recordWorkHours, addEmployee, ensureRecord, PayrollSystem.empty,
    writeRecordIn, modifyFirst, samePeriod, scenarioRecord]

/-- Witness for C1: the scenario of the specification, gross 44750 and net
35823.75, tax 8726.25. -/
theorem runPayroll_computes_pay_witness :
    findEmployee scenarioState scenarioEmployee.id = some scenarioEmployee
    ∧ findRecord scenarioState scenarioEmployee.id 5 2024 = some scenarioRecord
    ∧ scenarioRecord.finalized = false
    ∧ findRecord (runPayroll scenarioState 5 2024).1 1 5 2024
        = some { scenarioRecord with grossPay := 44750, netPay := 3582375 / 100,
                                     finalized := true }
    ∧ taxOf scenarioEmployee scenarioRecord = 872625 / 100 := by
  have h1 : findEmployee scenarioState scenarioEmployee.id = some scenarioEmployee :=
    scenarioState_findEmployee
  have h2 : findRecord scenarioState scenarioEmployee.id 5 2024 = some scenarioRecord :=
    scenarioState_findRecord
  have h3 : scenarioRecord.finalized = false := rfl
  refine ⟨h1, h2, h3, ?_, ?_⟩
  swap
  · simp [taxOf, grossOf, accumulateAmounts, scenarioRecord, scenarioEmployee]
    norm_num
  have h := runPayroll_computes_pay scenarioState 5 2024 scenarioEmployee scenarioRecord h1 h2 h3
  rw [show (1 : Int) = scenarioEmployee.id from rfl, h]
  simp [scenarioRecord, scenarioEmployee]
  norm_num

/-! ## The accumulation operations in closed form -/

theorem recordWorkHours_eq (s : PayrollSystem) (id m y : Int) (a b : ℚ) :
    recordWorkHours s id m y a b = accumulate s id m y (fun record =>
      { record with regularHours := record.regularHours + a,
                    overtimeHours := record.overtimeHours + b }) := rfl

theorem addAllowance_eq (s : PayrollSystem) (id m y : Int) (a : Adjustment) :
    addAllowance s id m y a = accumulate s id m y (fun record =>
      { record with allowances := record.allowances ++ [a] }) := rfl

theorem addDeduction_eq (s : PayrollSystem) (id m y : Int) (a : Adjustment) :
    addDeduction s id m y a = accumulate s id m y (fun record =>
      { record with deductions := record.deductions ++ [a] }) := rfl

theorem modifyFirst_append_fresh {α : Type} (p : α → Bool) (f : α → α) (rs : List α) (x : α)
    (hx : p x = true) (h : rs.find? p = none) :
    modifyFirst p f (rs ++ [x]) = rs ++ [f x] := by
  induction rs with
  | nil => simp [modifyFirst, hx]
  | cons r rs ih =>
    cases hr : p r
    · simp [hr] at h
      have h2 : rs.find? p = none := by
        rw [List.find?_eq_none]
        intro a ha
        simpa using h a ha
      have h3 := ih h2
      simp [modifyFirst, hr, h3]
    · simp [hr] at h

theorem samePeriod_fresh (m y : Int) :
    samePeriod m y { month := m, year := y } = true := by
  simp [samePeriod]

theorem accumulate_employees (s : PayrollSystem) (id m y : Int)
    (f : PayrollRecord → PayrollRecord) :
    (accumulate s id m y f).employees_ = s.employees_ := rfl

theorem accumulate_payroll (s : PayrollSystem) (id m y : Int)
    (f : PayrollRecord → PayrollRecord) (k : Int) :
    (accumulate s id m y f).payroll_ k
      = if k = id then some (upsert m y f ((s.payroll_ id).getD [])) else s.payroll_ k := by
  unfold accumulate ensureRecord
  simp only
  rw [writeRecordIn_apply]
  by_cases hk : k = id
  · subst hk
    simp only [if_true, Function.update_same, Option.map_some']
    congr 1
    unfold upsert
    cases hfind : List.find? (samePeriod m y) ((s.payroll_ k).getD []) with
    | none =>
      have hany : List.any ((s.payroll_ k).getD []) (samePeriod m y) = false := by
        rw [List.any_eq_false]
        intro x hx
        have := List.find?_eq_none.mp hfind x hx
        simpa using this
      simp only [hany, Bool.false_eq_true, if_false]
      exact modifyFirst_append_fresh _ f _ _ (samePeriod_fresh m y) hfind
    | some r =>
      have hany : List.any ((s.payroll_ k).getD []) (samePeriod m y) = true := by
        rw [List.any_eq_true]
        exact ⟨r, List.mem_of_find?_eq_some hfind, List.find?_some hfind⟩
      simp only [hany, if_true]
  · simp only [hk, if_false, Function.update_noteq hk]

/-! ## C2: the pay equations as an invariant -/

theorem mem_upsert (m y : Int) (f : PayrollRecord → PayrollRecord) (rs : List PayrollRecord)
    (x : PayrollRecord) (hx : x ∈ upsert m y f rs) :
    x ∈ rs ∨ (∃ r, rs.find? (samePeriod m y) = some r ∧ x = f r)
      ∨ (rs.find? (samePeriod m y) = none ∧ x = f { month := m, year := y }) := by
  unfold upsert at hx
  cases hfind : rs.find? (samePeriod m y) with
  | none =>
    rw [hfind] at hx
    simp at hx
    rcases hx with h | h
    · left; exact h
    · right; right; exact ⟨rfl, h⟩
  | some r =>
    rw [hfind] at hx
    rcases mem_modifyFirst _ _ _ _ hx with h | ⟨r0, h1, h2⟩
    · left; exact h
    · right; left
      rw [hfind] at h1
      exact ⟨r0, h1, h2⟩

theorem lateEditState_payroll :
    lateEditState.payroll_ 1
      = some [{ month := 5, year := 2024, regularHours := 161, overtimeHours := 10,
                grossPay := 44250, netPay := 3562125 / 100, finalized := true }] := by
  simp [lateEditState, runOps, applyOp, addEmployee, PayrollSystem.empty, recordWorkHours,
    ensureRecord, writeRecordIn, modifyFirst, samePeriod, runPayroll, runPayrollLoop,
    runPayrollStep, findRecordIn, finalizeRecord, grossOf, netOf, taxOf, accumulateAmounts,
    scenarioEmployee]
  norm_num

theorem runPayrollLoop_all_finalized (m y : Int) (es : List Employee)
    (q : Int → Option (List PayrollRecord))
    (h : ∀ e ∈ es, ∀ r, findRecordIn q e.id m y = some r → r.finalized = true) :
    runPayrollLoop m y es q = (q, es.map (skipOutcome q m y)) := by
  induction es with
  | nil => rfl
  | cons e es ih =>
    have hstep : runPayrollStep m y e q = (q, skipOutcome q m y e) := by
      unfold runPayrollStep skipOutcome
      cases hf : findRecordIn q e.id m y with
      | none => rfl
      | some r =>
        have := h e (List.mem_cons_self _ _) r hf
        simp [this]
    simp only [runPayrollLoop, hstep, List.map_cons]
    rw [ih (fun e0 he0 => h e0 (List.mem_cons_of_mem _ he0))]

theorem findEmployeeIn_isSome_of_mem (es : List Employee) (e : Employee) (he : e ∈ es) :
    ∃ e0, findEmployeeIn es e.id = some e0 := by
  unfold findEmployeeIn
  cases hf : es.find? (fun employee => employee.id == e.id) with
  | some e0 => exact ⟨e0, rfl⟩
  | none =>
    have := List.find?_eq_none.mp hf e he
    simp at this

/-- C3: a second `runPayroll(m, y)` leaves the whole state as the first left
it, prints "already finalized" for every roster entry that has a record for
the period (in the state before the first call, equivalently in the state
between the two calls) and "no data" for the others, and computes nothing. -/
theorem runPayroll_idempotent (s : PayrollSystem) (m y : Int) :
    (runPayroll (runPayroll s m y).1 m y).1 = (runPayroll s m y).1
    ∧ (runPayroll (runPayroll s m y).1 m y).2
        = s.employees_.map (fun e =>
            if (findRecord s e.id m y).isSome then PayrollOutcome.alreadyFinalized e
            else PayrollOutcome.noPayrollData e)
    ∧ (∀ e ∈ s.employees_, (findRecord (runPayroll s m y).1 e.id m y).isSome
        = (findRecord s e.id m y).isSome)
    ∧ (∀ o ∈ (runPayroll (runPayroll s m y).1 m y).2,
        ∀ e a b c d t n, o ≠ PayrollOutcome.computed e a b c d t n) := by
  have hfin : ∀ e ∈ s.employees_, ∀ r,
      findRecordIn (runPayrollLoop m y s.employees_ s.payroll_).1 e.id m y = some r →
        r.finalized = true := by
    intro e he r hr
    rw [findRecordIn_loop] at hr
    obtain ⟨e0, he0⟩ := findEmployeeIn_isSome_of_mem _ e he
    rw [he0] at hr
    cases hf : findRecordIn s.payroll_ e.id m y with
    | none => simp [hf] at hr
    | some r0 =>
      simp only [hf, Option.map_some', Option.some.injEq] at hr
      rw [← hr]
      exact finalizeOnce_finalized e0 r0
  have hsome : ∀ e ∈ s.employees_,
      (findRecordIn (runPayrollLoop m y s.employees_ s.payroll_).1 e.id m y).isSome
        = (findRecordIn s.payroll_ e.id m y).isSome := by
    intro e he
    rw [findRecordIn_loop]
    obtain ⟨e0, he0⟩ := findEmployeeIn_isSome_of_mem _ e he
    rw [he0]
    cases findRecordIn s.payroll_ e.id m y <;> rfl
  have hloop := runPayrollLoop_all_finalized m y s.employees_ _ hfin
  have hout : (runPayroll (runPayroll s m y).1 m y).2
        = s.employees_.map (fun e =>
            if (findRecord s e.id m y).isSome then PayrollOutcome.alreadyFinalized e
            else PayrollOutcome.noPayrollData e) := by
    unfold runPayroll findRecord
    simp only [hloop]
    apply List.map_congr_left
    intro e he
    unfold skipOutcome
    rw [hsome e he]
  refine ⟨?_, hout, ?_, ?_⟩
  · unfold runPayroll
    simp only [hloop]
  · intro e he
    exact hsome e he
  · intro o ho e a b c d t n heq
    rw [hout] at ho
    obtain ⟨e1, _, h1⟩ := List.mem_map.mp ho
    rw [heq] at h1
    split at h1 <;> cases h1

/-! ## C4: finalized records keep their pay -/

theorem getElem_upsert (m y : Int) (f : PayrollRecord → PayrollRecord)
    (rs : List PayrollRecord) (i : Nat) (r : PayrollRecord) (hi : rs[i]? = some r) :
    (upsert m y f rs)[i]? = some r ∨ (upsert m y f rs)[i]? = some (f r) := by
  unfold upsert
  cases hfind : rs.find? (samePeriod m y) with
  | none =>
    left
    simp only
    have hlt : i < rs.length := by
      by_contra hge
      rw [List.getElem?_eq_none (by omega)] at hi
      cases hi
    rw [List.getElem?_append_left hlt, hi]
  | some r0 =>
    simp only
    rcases getElem_modifyFirst (samePeriod m y) f rs i with h | ⟨r1, h1, _, h3⟩
    · left; rw [h, hi]
    · right
      rw [hi] at h1
      cases h1
      exact h3

theorem find_upsert (m y : Int) (f : PayrollRecord → PayrollRecord)
    (hf : ∀ r, (f r).month = r.month ∧ (f r).year = r.year) (rs : List PayrollRecord) :
    (upsert m y f rs).find? (samePeriod m y)
      = some (f ((rs.find? (samePeriod m y)).getD { month := m, year := y })) := by
  have hsp : ∀ r, samePeriod m y (f r) = samePeriod m y r := by
    intro r
    simp [samePeriod, (hf r).1, (hf r).2]
  unfold upsert
  cases hfind : rs.find? (samePeriod m y) with
  | none =>
    simp only [Option.getD_none]
    rw [List.find?_append, hfind]
    simp [hsp, samePeriod_fresh]
  | some r0 =>
    simp only [Option.getD_some]
    rw [find_modifyFirst _ _ hsp, hfind]
    rfl

theorem find_upsert_other (m y m2 y2 : Int) (f : PayrollRecord → PayrollRecord)
    (hf : ∀ r, (f r).month = r.month ∧ (f r).year = r.year) (rs : List PayrollRecord)
    (hne : ¬ (m2 = m ∧ y2 = y)) :
    (upsert m y f rs).find? (samePeriod m2 y2) = rs.find? (samePeriod m2 y2) := by
  have hsp : ∀ r, samePeriod m2 y2 (f r) = samePeriod m2 y2 r := by
    intro r
    simp [samePeriod, (hf r).1, (hf r).2]
  have hdis : ∀ r, samePeriod m y r = true → samePeriod m2 y2 r = false := by
    intro r hr
    rw [samePeriod_iff] at hr
    cases h2 : samePeriod m2 y2 r
    · rfl
    · rw [samePeriod_iff] at h2
      exact absurd ⟨h2.1.symm.trans hr.1, h2.2.symm.trans hr.2⟩ hne
  unfold upsert
  cases hfind : rs.find? (samePeriod m y) with
  | none =>
    simp only
    rw [List.find?_append]
    have : samePeriod m2 y2 (f { month := m, year := y }) = false := by
      rw [hsp]
      exact hdis _ (samePeriod_fresh m y)
    simp [this]
  | some r0 =>
    simp only
    exact find_modifyFirst_other _ _ f hsp hdis rs

theorem findRecord_accumulate (s : PayrollSystem) (id m y : Int)
    (f : PayrollRecord → PayrollRecord)
    (hf : ∀ r, (f r).month = r.month ∧ (f r).year = r.year) (k m2 y2 : Int) :
    findRecord (accumulate s id m y f) k m2 y2
      = if k = id ∧ m2 = m ∧ y2 = y then
          some (f ((findRecord s id m y).getD { month := m, year := y }))
        else findRecord s k m2 y2 := by
  unfold findRecord findRecordIn
  rw [accumulate_payroll]
  by_cases hk : k = id
  · subst hk
    simp only [if_true, true_and]
    by_cases hp : m2 = m ∧ y2 = y
    · obtain ⟨rfl, rfl⟩ := hp
      simp only [and_self, if_true]
      rw [find_upsert m2 y2 f hf]
      cases s.payroll_ k <;> rfl
    · simp only [hp, if_false]
      rw [find_upsert_other m y m2 y2 f hf _ hp]
      cases s.payroll_ k <;> rfl
  · simp only [hk, false_and, if_false]

theorem findRecordIn_loop_other (m y : Int) (es : List Employee)
    (p : Int → Option (List PayrollRecord)) (k m2 y2 : Int) (hne : ¬ (m2 = m ∧ y2 = y)) :
    findRecordIn (runPayrollLoop m y es p).1 k m2 y2 = findRecordIn p k m2 y2 := by
  have hdis : ∀ r, samePeriod m y r = true → samePeriod m2 y2 r = false := by
    intro r hr
    rw [samePeriod_iff] at hr
    cases h2 : samePeriod m2 y2 r
    · rfl
    · rw [samePeriod_iff] at h2
      exact absurd ⟨h2.1.symm.trans hr.1, h2.2.symm.trans hr.2⟩ hne
  unfold findRecordIn
  rw [runPayrollLoop_fst]
  cases findEmployeeIn es k with
  | none => rfl
  | some e =>
    cases p k with
    | none => rfl
    | some rs =>
      simp only [Option.map_some']
      exact find_modifyFirst_other _ _ _ (samePeriod_finalizeOnce m2 y2 e) hdis rs

theorem keepsFinalPay_self (r : PayrollRecord) (h : r.finalized = true) : keepsFinalPay r r :=
  ⟨rfl, rfl, h, rfl, rfl⟩

theorem keepsFinalPay_accumulate (s : PayrollSystem) (id0 m0 y0 : Int)
    (f : PayrollRecord → PayrollRecord)
    (hf : ∀ r, (f r).month = r.month ∧ (f r).year = r.year ∧ (f r).finalized = r.finalized
      ∧ (f r).grossPay = r.grossPay ∧ (f r).netPay = r.netPay)
    (id : Int) (rs : List PayrollRecord) (i : Nat) (r : PayrollRecord)
    (hk : s.payroll_ id = some rs) (hi : rs[i]? = some r) (hfin : r.finalized = true) :
    (∃ rs2 r2, (accumulate s id0 m0 y0 f).payroll_ id = some rs2 ∧ rs2[i]? = some r2
        ∧ keepsFinalPay r r2)
    ∧ (findRecord s id r.month r.year = some r →
        ∃ r3, findRecord (accumulate s id0 m0 y0 f) id r.month r.year = some r3
          ∧ keepsFinalPay r r3) := by
  have hfr : keepsFinalPay r (f r) := by
    obtain ⟨h1, h2, h3, h4, h5⟩ := hf r
    exact ⟨h1, h2, h3.trans hfin, h4, h5⟩
  constructor
  · rw [accumulate_payroll]
    by_cases hid : id = id0
    · subst hid
      simp only [if_true, hk, Option.getD_some]
      rcases getElem_upsert m0 y0 f rs i r hi with h | h
      · exact ⟨_, r, rfl, h, keepsFinalPay_self r hfin⟩
      · exact ⟨_, f r, rfl, h, hfr⟩
    · simp only [hid, if_false]
      exact ⟨rs, r, hk, hi, keepsFinalPay_self r hfin⟩
  · intro hfind
    rw [findRecord_accumulate s id0 m0 y0 f (fun r0 => ⟨(hf r0).1, (hf r0).2.1⟩)]
    by_cases hc : id = id0 ∧ r.month = m0 ∧ r.year = y0
    · obtain ⟨rfl, rfl, rfl⟩ := hc
      simp only [and_self, if_true, hfind, Option.getD_some]
      exact ⟨f r, rfl, hfr⟩
    · simp only [hc, if_false]
      exact ⟨r, hfind, keepsFinalPay_self r hfin⟩

/-- C4: a finalized record stays where it is, finalized and with the same
`grossPay` and `netPay`, under every single operation with any arguments:
the record at position `i` of the vector of `id` keeps its period, its flag
and its pay, and when it is the record `findRecord` returns for its key it
still is afterwards. -/
theorem finalized_is_terminal (s : PayrollSystem) (op : Op) (id : Int)
    (rs : List PayrollRecord) (i : Nat) (r : PayrollRecord)
    (hk : s.payroll_ id = some rs) (hi : rs[i]? = some r) (hfin : r.finalized = true) :
    (∃ rs2 r2, (applyOp s op).payroll_ id = some rs2 ∧ rs2[i]? = some r2
        ∧ r2.month = r.month ∧ r2.year = r.year ∧ r2.finalized = true
        ∧ r2.grossPay = r.grossPay ∧ r2.netPay = r.netPay)
    ∧ (findRecord s id r.month r.year = some r →
        ∃ r3, findRecord (applyOp s op) id r.month r.year = some r3
          ∧ r3.finalized = true ∧ r3.grossPay = r.grossPay ∧ r3.netPay = r.netPay) := by
  have key : (∃ rs2 r2, (applyOp s op).payroll_ id = some rs2 ∧ rs2[i]? = some r2
        ∧ keepsFinalPay r r2)
      ∧ (findRecord s id r.month r.year = some r →
        ∃ r3, findRecord (applyOp s op) id r.month r.year = some r3 ∧ keepsFinalPay r r3) := by
    cases op with
    | addEmployee e0 =>
      exact ⟨⟨rs, r, hk, hi, keepsFinalPay_self r hfin⟩,
        fun h => ⟨r, h, keepsFinalPay_self r hfin⟩⟩
    | recordWorkHours id0 m0 y0 a b =>
      exact keepsFinalPay_accumulate s id0 m0 y0
        (fun record => { record with regularHours := record.regularHours + a, overtimeHours := record.overtimeHours + b })
        (fun _ => ⟨rfl, rfl, rfl, rfl, rfl⟩) id rs i r hk hi hfin
    | addAllowance id0 m0 y0 a =>
      exact keepsFinalPay_accumulate s id0 m0 y0
        (fun record => { record with allowances := record.allowances ++ [a] })
        (fun _ => ⟨rfl, rfl, rfl, rfl, rfl⟩) id rs i r hk hi hfin
    | addDeduction id0 m0 y0 a =>
      exact keepsFinalPay_accumulate s id0 m0 y0
        (fun record => { record with deductions := record.deductions ++ [a] })
        (fun _ => ⟨rfl, rfl, rfl, rfl, rfl⟩) id rs i r hk hi hfin
    | printPayslip id0 m0 y0 =>
      exact ⟨⟨rs, r, hk, hi, keepsFinalPay_self r hfin⟩,
        fun h => ⟨r, h, keepsFinalPay_self r hfin⟩⟩
    | runPayroll m0 y0 =>
      constructor
      · show ∃ rs2 r2, (runPayrollLoop m0 y0 s.employees_ s.payroll_).1 id = some rs2
          ∧ rs2[i]? = some r2 ∧ keepsFinalPay r r2
        rw [runPayrollLoop_fst]
        cases findEmployeeIn s.employees_ id with
        | none => exact ⟨rs, r, hk, hi, keepsFinalPay_self r hfin⟩
        | some e =>
          simp only [hk, Option.map_some']
          rcases getElem_modifyFirst (samePeriod m0 y0) (finalizeOnce e) rs i with h | ⟨r1, h1, _, h3⟩
          · exact ⟨_, r, rfl, h.trans hi, keepsFinalPay_self r hfin⟩
          · rw [hi] at h1
            cases h1
            rw [finalizeOnce_of_finalized e r hfin] at h3
            exact ⟨_, r, rfl, h3, keepsFinalPay_self r hfin⟩
      · intro hfind
        show ∃ r3, findRecordIn (runPayrollLoop m0 y0 s.employees_ s.payroll_).1 id r.month r.year
          = some r3 ∧ keepsFinalPay r r3
        unfold findRecord at hfind
        by_cases hc : r.month = m0 ∧ r.year = y0
        · obtain ⟨rfl, rfl⟩ := hc
          rw [findRecordIn_loop]
          cases findEmployeeIn s.employees_ id with
          | none => exact ⟨r, hfind, keepsFinalPay_self r hfin⟩
          | some e =>
            simp only [hfind, Option.map_some']
            rw [finalizeOnce_of_finalized e r hfin]
            exact ⟨r, rfl, keepsFinalPay_self r hfin⟩
        · rw [findRecordIn_loop_other m0 y0 _ _ id r.month r.year hc]
          exact ⟨r, hfind, keepsFinalPay_self r hfin⟩
  obtain ⟨⟨rs2, r2, h1, h2, h3⟩, h4⟩ := key
  refine ⟨⟨rs2, r2, h1, h2, h3⟩, ?_⟩
  intro hfind
  obtain ⟨r3, h5, h6⟩ := h4 hfind
  exact ⟨r3, h5, h6.2.2.1, h6.2.2.2.1, h6.2.2.2.2⟩

theorem scenario_final_payroll :
    (runPayroll scenarioState 5 2024).1.payroll_ 1 = some [scenarioFinalRecord] := by
  simp [scenarioState, scenarioFinalRecord, scenarioRecord, addDeduction, addAllowance,
    addEmployee, PayrollSystem.empty, recordWorkHours,
    ensureRecord, writeRecordIn, modifyFirst, samePeriod, runPayroll, runPayrollLoop,
    runPayrollStep, findRecordIn, finalizeRecord, grossOf, netOf, taxOf, accumulateAmounts,
    scenarioEmployee]
  norm_num

/-- Witness for C4: hours recorded on the finalized record of the scenario
leave it finalized with gross 44750 and net 35823.75. -/
theorem finalized_is_terminal_witness :
    (runPayroll scenarioState 5 2024).1.payroll_ 1 = some [scenarioFinalRecord]
    ∧ [scenarioFinalRecord][0]? = some scenarioFinalRecord
    ∧ scenarioFinalRecord.finalized = true
    ∧ (∃ rs2 r2,
        (applyOp (runPayroll scenarioState 5 2024).1 (Op.recordWorkHours 1 5 2024 8 0)).payroll_ 1
          = some rs2
        ∧ rs2[0]? = some r2 ∧ r2.month = 5 ∧ r2.year = 2024 ∧ r2.finalized = true
        ∧ r2.grossPay = 44750 ∧ r2.netPay = 3582375 / 100) :=
  ⟨scenario_final_payroll, rfl, rfl,
    (finalized_is_terminal (runPayroll scenarioState 5 2024).1 (Op.recordWorkHours 1 5 2024 8 0)
      1 [scenarioFinalRecord] 0 scenarioFinalRecord scenario_final_payroll rfl rfl).1⟩

/-! ## C5: additivity of hours -/

theorem findRecord_recordWorkHours_same (s : PayrollSystem) (id m y : Int) (a b : ℚ) :
    findRecord (recordWorkHours s id m y a b) id m y
      = some (withHoursAdded ((findRecord s id m y).getD { month := m, year := y }) a b) := by
  rw [recordWorkHours_eq, findRecord_accumulate s id m y
    (fun record => { record with regularHours := record.regularHours + a,
                                 overtimeHours := record.overtimeHours + b })
    (fun _ => ⟨rfl, rfl⟩)]
  simp [withHoursAdded]

theorem findRecord_recordAll_of_some (s : PayrollSystem) (id m y : Int)
    (deltas : List (ℚ × ℚ)) (r : PayrollRecord) (h : findRecord s id m y = some r) :
    findRecord (recordAll s id m y deltas) id m y
      = some (withHoursAdded r (deltas.map (fun d => d.1)).sum
          (deltas.map (fun d => d.2)).sum) := by
  induction deltas generalizing s r with
  | nil => simp [recordAll, h, withHoursAdded]
  | cons d ds ih =>
    have h1 := findRecord_recordWorkHours_same s id m y d.1 d.2
    rw [h] at h1
    simp only [Option.getD_some] at h1
    have h2 := ih _ _ h1
    simp only [recordAll, List.foldl_cons] at h2 ⊢
    rw [h2]
    simp [withHoursAdded, add_assoc]

theorem recordWorkHours_additive (s : PayrollSystem) (id m y : Int) (deltas : List (ℚ × ℚ)) :
    findRecord (recordAll s id m y deltas) id m y
      = if deltas = [] then findRecord s id m y
        else
          some (withHoursAdded ((findRecord s id m y).getD { month := m, year := y })
            (deltas.map (fun d => d.1)).sum (deltas.map (fun d => d.2)).sum) := by
  cases deltas with
  | nil => rfl
  | cons d ds =>
    simp only [List.cons_ne_nil, if_false]
    have h1 := findRecord_recordWorkHours_same s id m y d.1 d.2
    have h2 := findRecord_recordAll_of_some _ id m y ds _ h1
    simp only [recordAll, List.foldl_cons] at h2 ⊢
    rw [h2]
    simp [withHoursAdded, add_assoc]

theorem roundHalfEven_intCast (z : Int) : roundHalfEven (z : ℚ) = z := by
  simp [roundHalfEven]

theorem roundHalfEven_tie_even (q : ℚ) (z : Int) (hq : q = (z : ℚ) + 1 / 2)
    (hz : z % 2 = 0) : roundHalfEven q = z := by
  have hfloor : Int.floor q = z := by
    rw [Int.floor_eq_iff, hq]
    constructor <;> linarith
  unfold roundHalfEven
  rw [hfloor, hq]
  have h1 : ¬ ((z : ℚ) + 1 / 2 - z < 1 / 2) := by
    intro h
    linarith
  have h2 : ¬ (1 / 2 < (z : ℚ) + 1 / 2 - z) := by
    intro h
    linarith
  rw [if_neg h1, if_neg h2, if_pos hz]

theorem binary64Exponent_of_bounds (q : ℚ) (k : Int) (h1 : (2 : ℚ) ^ k ≤ q)
    (h2 : q < (2 : ℚ) ^ (k + 1)) (hk : -1022 ≤ k) : binary64Exponent q = k - 52 := by
  have hpos : 0 < q := lt_of_lt_of_le (zpow_pos (by norm_num) k) h1
  have hlog : Int.log 2 |q| = k := by
    rw [abs_of_pos hpos]
    apply le_antisymm
    · have := (Int.lt_zpow_iff_log_lt (b := 2) (by norm_num) hpos).mp (by exact_mod_cast h2)
      omega
    · exact (Int.zpow_le_iff_le_log (b := 2) (by norm_num) hpos).mp (by exact_mod_cast h1)
  unfold binary64Exponent
  rw [hlog]
  omega

theorem roundBinary64_zero : roundBinary64 0 = 0 := by
  simp [roundBinary64, roundHalfEven]

theorem roundBinary64_1e16 : roundBinary64 10000000000000000 = 10000000000000000 := by
  have he : binary64Exponent 10000000000000000 = 1 := by
    rw [binary64Exponent_of_bounds 10000000000000000 53 (by norm_num) (by norm_num)
      (by norm_num)]
    norm_num
  have hq : (10000000000000000 : ℚ) / 2 ^ (1 : Int) = ((5000000000000000 : Int) : ℚ) := by
    norm_num
  unfold roundBinary64
  rw [he, hq, roundHalfEven_intCast]
  norm_num

theorem roundBinary64_1e16_plus_one :
    roundBinary64 10000000000000001 = 10000000000000000 := by
  have he : binary64Exponent 10000000000000001 = 1 := by
    rw [binary64Exponent_of_bounds 10000000000000001 53 (by norm_num) (by norm_num)
      (by norm_num)]
    norm_num
  have hr : roundHalfEven ((10000000000000001 : ℚ) / 2 ^ (1 : Int)) = 5000000000000000 := by
    apply roundHalfEven_tie_even
    · norm_num
    · norm_num
  unfold roundBinary64
  rw [he, hr]
  norm_num

theorem roundBinary64_one : roundBinary64 1 = 1 := by
  have he : binary64Exponent 1 = -52 := by
    rw [binary64Exponent_of_bounds 1 0 (by norm_num) (by norm_num) (by norm_num)]
    norm_num
  have hq : (1 : ℚ) / 2 ^ (-52 : Int) = ((4503599627370496 : Int) : ℚ) := by
    norm_num
  unfold roundBinary64
  rw [he, hq, roundHalfEven_intCast]
  norm_num

theorem findRecord_recordWorkHoursWith (add : ℚ → ℚ → ℚ) (s : PayrollSystem) (id m y : Int)
    (a b : ℚ) :
    findRecord (recordWorkHoursWith add s id m y a b) id m y
      = some (withHours (priorRecord s id m y) (add (priorRecord s id m y).regularHours a)
          (add (priorRecord s id m y).overtimeHours b)) := by
  have h := findRecord_accumulate s id m y
    (fun record => { record with regularHours := add record.regularHours a,
                                 overtimeHours := add record.overtimeHours b })
    (fun _ => ⟨rfl, rfl⟩) id m y
  simp only [and_self, if_true] at h
  exact h

theorem findRecord_recordAllWith_of_some (add : ℚ → ℚ → ℚ) (s : PayrollSystem) (id m y : Int)
    (deltas : List (ℚ × ℚ)) (r : PayrollRecord) (h : findRecord s id m y = some r) :
    findRecord (recordAllWith add s id m y deltas) id m y
      = some (withHours r ((deltas.map (fun d => d.1)).foldl add r.regularHours)
          ((deltas.map (fun d => d.2)).foldl add r.overtimeHours)) := by
  induction deltas generalizing s r with
  | nil => simp [recordAllWith, h, withHours]
  | cons d ds ih =>
    have h1 := findRecord_recordWorkHoursWith add s id m y d.1 d.2
    have hp : priorRecord s id m y = r := by simp [priorRecord, h]
    rw [hp] at h1
    have h2 := ih _ _ h1
    simp only [recordAllWith, List.foldl_cons] at h2 ⊢
    rw [h2]
    simp [withHours]

theorem findRecord_recordAllWith (add : ℚ → ℚ → ℚ) (s : PayrollSystem) (id m y : Int)
    (deltas : List (ℚ × ℚ)) :
    findRecord (recordAllWith add s id m y deltas) id m y
      = if deltas = [] then findRecord s id m y
        else
          some (withHours (priorRecord s id m y)
            ((deltas.map (fun d => d.1)).foldl add (priorRecord s id m y).regularHours)
            ((deltas.map (fun d => d.2)).foldl add (priorRecord s id m y).overtimeHours)) := by
  cases deltas with
  | nil => rfl
  | cons d ds =>
    simp only [List.cons_ne_nil, if_false]
    have h1 := findRecord_recordWorkHoursWith add s id m y d.1 d.2
    have h2 := findRecord_recordAllWith_of_some add _ id m y ds _ h1
    simp only [recordAllWith, List.foldl_cons] at h2 ⊢
    rw [h2]
    simp [withHours]

/-- C5 (amended): after one `recordWorkHours` call on the key per delta, in
order and with deltas of any sign, the record of the key is the record the
key had before (the fresh record, hours 0, when it had none) with the
regular deltas added to `regularHours` one at a time in call order by the
engine's addition, and likewise the overtime deltas; in exact arithmetic
that is `regularHours` = r0 + sum of the regular deltas and `overtimeHours`
= o0 + sum of the overtime deltas. With no call the lookup is what it was. -/
theorem recordWorkHours_accumulates (s : PayrollSystem) (id m y : Int)
    (deltas : List (ℚ × ℚ)) :
    (∀ add : ℚ → ℚ → ℚ,
      findRecord (recordAllWith add s id m y deltas) id m y
        = if deltas = [] then findRecord s id m y
          else
            some (withHours (priorRecord s id m y)
              ((deltas.map (fun d => d.1)).foldl add (priorRecord s id m y).regularHours)
              ((deltas.map (fun d => d.2)).foldl add (priorRecord s id m y).overtimeHours)))
    ∧ recordAll s id m y deltas = recordAllWith (fun a b => a + b) s id m y deltas
    ∧ findRecord (recordAll s id m y deltas) id m y
        = if deltas = [] then findRecord s id m y
          else
            some (withHours (priorRecord s id m y)
              ((priorRecord s id m y).regularHours + (deltas.map (fun d => d.1)).sum)
              ((priorRecord s id m y).overtimeHours + (deltas.map (fun d => d.2)).sum)) :=
  ⟨fun add => findRecord_recordAllWith add s id m y deltas, rfl,
    recordWorkHours_additive s id m y deltas⟩

theorem foldl_three (f : ℚ → ℚ → ℚ) (a x y z : ℚ) :
    [x, y, z].foldl f a = f (f (f a x) y) z := rfl

theorem withHours_regularHours (r : PayrollRecord) (a b : ℚ) :
    (withHours r a b).regularHours = a := rfl

theorem priorRecord_empty_regularHours (id m y : Int) :
    (priorRecord PayrollSystem.empty id m y).regularHours = 0 := rfl

theorem binary64Add_eq (a b : ℚ) : binary64Add a b = roundBinary64 (a + b) := rfl

theorem map_fst_three (a b c d e f : ℚ) :
    [(a, b), (c, d), (e, f)].map (fun p => p.1) = [a, c, e] := rfl

/-- C5 as stated fails in `double` arithmetic: from the empty engine, hours
1e16, then 1, then 1 for one key leave `regularHours` = 1e16, while r0 + the
sum of the deltas is 0 + (1e16 + 1 + 1) = 1e16 + 2; the three deltas are
`double`s. -/
theorem recordWorkHours_rounds_in_binary64 :
    roundBinary64 10000000000000000 = 10000000000000000
    ∧ roundBinary64 1 = 1
    ∧ findRecord PayrollSystem.empty 1 5 2024 = none
    ∧ (findRecord (recordAllWith binary64Add PayrollSystem.empty 1 5 2024
          [(10000000000000000, 0), (1, 0), (1, 0)]) 1 5 2024).map (fun r => r.regularHours)
        = some 10000000000000000
    ∧ (0 : ℚ) + ([((10000000000000000 : ℚ), (0 : ℚ)), (1, 0), (1, 0)].map (fun d => d.1)).sum
        = 10000000000000002
    ∧ (findRecord (recordAllWith binary64Add PayrollSystem.empty 1 5 2024
          [(10000000000000000, 0), (1, 0), (1, 0)]) 1 5 2024).map (fun r => r.regularHours)
        ≠ some ((0 : ℚ)
            + ([((10000000000000000 : ℚ), (0 : ℚ)), (1, 0), (1, 0)].map (fun d => d.1)).sum) := by
  have e2 : (10000000000000000 : ℚ) + 1 = 10000000000000001 := by norm_num
  have hA : (findRecord (recordAllWith binary64Add PayrollSystem.empty 1 5 2024
      [(10000000000000000, 0), (1, 0), (1, 0)]) 1 5 2024).map (fun r => r.regularHours)
      = some 10000000000000000 := by
    rw [findRecord_recordAllWith, if_neg (List.cons_ne_nil _ _), Option.map_some',
      withHours_regularHours, map_fst_three, foldl_three, priorRecord_empty_regularHours,
      binary64Add_eq, binary64Add_eq, binary64Add_eq, zero_add, roundBinary64_1e16, e2,
      roundBinary64_1e16_plus_one, e2, roundBinary64_1e16_plus_one]
  have hB : (0 : ℚ)
      + ([((10000000000000000 : ℚ), (0 : ℚ)), (1, 0), (1, 0)].map (fun d => d.1)).sum
      = 10000000000000002 := by
    rw [map_fst_three]
    norm_num
  refine ⟨roundBinary64_1e16, roundBinary64_one, rfl, hA, hB, ?_⟩
  rw [hA, hB]
  norm_num

/-! ## C6: `printPayslip` -/

theorem findEmployeeIn_eq_none_iff (es : List Employee) (id : Int) :
    findEmployeeIn es id = none ↔ ∀ e ∈ es, e.id ≠ id := by
  unfold findEmployeeIn
  rw [List.find?_eq_none]
  constructor
  · intro h e he heq
    exact h e he (by simpa using heq)
  · intro h e he heq
    exact h e he (by simpa using heq)

/-- C6: `printPayslip(id, m, y)` leaves the engine as it is, and prints
"employee not found" exactly when no roster entry has the id; otherwise
"not finalized" exactly when the record of `(id, m, y)` is absent or not
finalized; otherwise a payslip. -/
theorem printPayslip_result (s : PayrollSystem) (id m y : Int) :
    applyOp s (Op.printPayslip id m y) = s
    ∧ (printPayslip s id m y = PayslipResult.employeeNotFound ↔ ∀ e ∈ s.employees_, e.id ≠ id)
    ∧ (printPayslip s id m y = PayslipResult.notFinalized ↔
        (∃ e ∈ s.employees_, e.id = id)
        ∧ (findRecord s id m y = none
            ∨ ∃ r, findRecord s id m y = some r ∧ r.finalized = false))
    ∧ ((∃ view, printPayslip s id m y = PayslipResult.payslip view) ↔
        (∃ e ∈ s.employees_, e.id = id)
        ∧ ∃ r, findRecord s id m y = some r ∧ r.finalized = true) := by
  have hnone := findEmployeeIn_eq_none_iff s.employees_ id
  refine ⟨rfl, ?_, ?_, ?_⟩
  · simp only [printPayslip, findEmployee, findRecordConst]
    cases he : findEmployeeIn s.employees_ id with
    | none =>
      simp only [true_iff]
      exact hnone.mp he
    | some e =>
      have hex : ¬ ∀ e ∈ s.employees_, e.id ≠ id := fun h => by
        rw [hnone.mpr h] at he
        cases he
      cases hr : findRecordIn s.payroll_ id m y with
      | none => simpa using hex
      | some r => cases hf : r.finalized <;> simpa [hf] using hex
  · simp only [printPayslip, findEmployee, findRecordConst, findRecord]
    cases he : findEmployeeIn s.employees_ id with
    | none =>
      have := hnone.mp he
      constructor
      · intro h
        cases h
      · intro ⟨⟨e, he1, he2⟩, _⟩
        exact absurd he2 (this e he1)
    | some e =>
      have hex : ∃ e ∈ s.employees_, e.id = id := by
        by_contra h
        rw [hnone.mpr (fun e he1 he2 => h ⟨e, he1, he2⟩)] at he
        cases he
      cases hr : findRecordIn s.payroll_ id m y with
      | none => simpa using hex
      | some r => cases hf : r.finalized <;> simp [hf, hex]
  · simp only [printPayslip, findEmployee, findRecordConst, findRecord]
    cases he : findEmployeeIn s.employees_ id with
    | none =>
      have := hnone.mp he
      constructor
      · intro ⟨_, h⟩
        cases h
      · intro ⟨⟨e, he1, he2⟩, _⟩
        exact absurd he2 (this e he1)
    | some e =>
      have hex : ∃ e ∈ s.employees_, e.id = id := by
        by_contra h
        rw [hnone.mpr (fun e he1 he2 => h ⟨e, he1, he2⟩)] at he
        cases he
      cases hr : findRecordIn s.payroll_ id m y with
      | none => simp
      | some r => cases hf : r.finalized <;> simp [hf, hex]

/-! ## C7: `runPayroll` without data -/

theorem findRecordIn_step_none (m y : Int) (e0 : Employee)
    (p : Int → Option (List PayrollRecord)) (k : Int) (h : findRecordIn p k m y = none) :
    findRecordIn (runPayrollStep m y e0 p).1 k m y = none := by
  have h1 := findRecordIn_loop m y [e0] p k
  simp only [runPayrollLoop] at h1
  rw [h1, h]
  cases findEmployeeIn [e0] k <;> rfl

theorem runPayrollLoop_outcome_noData (m y : Int) (es : List Employee)
    (p : Int → Option (List PayrollRecord)) (i : Nat) (e : Employee)
    (hi : es[i]? = some e) (h : findRecordIn p e.id m y = none) :
    (runPayrollLoop m y es p).2[i]? = some (PayrollOutcome.noPayrollData e) := by
  induction es generalizing p i with
  | nil => simp at hi
  | cons e0 es ih =>
    cases i with
    | zero =>
      simp only [List.getElem?_cons_zero, Option.some.injEq] at hi
      subst hi
      simp [runPayrollLoop, runPayrollStep, h]
    | succ i =>
      simp only [List.getElem?_cons_succ] at hi
      simp only [runPayrollLoop, List.getElem?_cons_succ]
      exact ih _ i hi (findRecordIn_step_none m y e0 p e.id h)

/-- C7: `runPayroll(m, y)` prints one line per roster entry; for a roster
entry without a record for the period the line is "no data" and the key
still has no record afterwards; and when no roster entry has a record for
the period the whole state is left as it was. -/
theorem runPayroll_noPayrollData (s : PayrollSystem) (m y : Int) :
    (runPayroll s m y).2.length = s.employees_.length
    ∧ (∀ (i : Nat) (e : Employee), s.employees_[i]? = some e → findRecord s e.id m y = none →
        (runPayroll s m y).2[i]? = some (PayrollOutcome.noPayrollData e)
        ∧ findRecord (runPayroll s m y).1 e.id m y = none)
    ∧ ((∀ e ∈ s.employees_, findRecord s e.id m y = none) → (runPayroll s m y).1 = s) := by
  refine ⟨?_, ?_, ?_⟩
  · unfold runPayroll
    simp only
    generalize s.payroll_ = p
    induction s.employees_ generalizing p with
    | nil => rfl
    | cons e es ih => simp [runPayrollLoop, ih]
  · intro i e hi h
    unfold findRecord at h
    refine ⟨runPayrollLoop_outcome_noData m y _ _ i e hi h, ?_⟩
    unfold findRecord runPayroll
    simp only
    rw [findRecordIn_loop, h]
    cases findEmployeeIn s.employees_ e.id <;> rfl
  · intro h
    have h1 := runPayrollLoop_all_finalized m y s.employees_ s.payroll_ (by
      intro e he r hr
      have := h e he
      unfold findRecord at this
      rw [this] at hr
      cases hr)
    unfold runPayroll
    simp only [h1]

/-- Witness for C7: `runPayroll(5, 2024)` on an engine whose only record is
for 6/2024. -/
theorem runPayroll_noPayrollData_witness :
    otherPeriodState.employees_[0]? = some scenarioEmployee
    ∧ findRecord otherPeriodState scenarioEmployee.id 5 2024 = none
    ∧ (∀ e ∈ otherPeriodState.employees_, findRecord otherPeriodState e.id 5 2024 = none)
    ∧ (runPayroll otherPeriodState 5 2024).2[0]?
        = some (PayrollOutcome.noPayrollData scenarioEmployee)
    ∧ findRecord (runPayroll otherPeriodState 5 2024).1 scenarioEmployee.id 5 2024 = none
    ∧ (runPayroll otherPeriodState 5 2024).1 = otherPeriodState := by
  have h1 : otherPeriodState.employees_[0]? = some scenarioEmployee := rfl
  have h2 : findRecord otherPeriodState scenarioEmployee.id 5 2024 = none := by
    simp [otherPeriodState, findRecord, findRecordIn, recordWorkHours, ensureRecord,
      writeRecordIn, modifyFirst, samePeriod, addEmployee, PayrollSystem.empty, scenarioEmployee]
  have h3 : ∀ e ∈ otherPeriodState.employees_, findRecord otherPeriodState e.id 5 2024 = none := by
    intro e he
    have : e = scenarioEmployee := by
      simpa [otherPeriodState, recordWorkHours, ensureRecord, addEmployee,
        PayrollSystem.empty] using he
    rw [this]
    exact h2
  have h := runPayroll_noPayrollData otherPeriodState 5 2024
  exact ⟨h1, h2, h3, (h.2.1 0 scenarioEmployee h1 h2).1, (h.2.1 0 scenarioEmployee h1 h2).2,
    h.2.2 h3⟩

/-! ## C8: one record per key -/

theorem reachable_induction (P : PayrollSystem → Prop) (h0 : P PayrollSystem.empty)
    (hstep : ∀ s op, Reachable s → P s → P (applyOp s op)) :
    ∀ s, Reachable s → P s := by
  intro s ⟨ops, hs⟩
  subst hs
  induction ops using List.reverseRecOn with
  | nil => exact h0
  | append_singleton ops op ih =>
    simp only [runOps, List.foldl_append, List.foldl_cons, List.foldl_nil]
    exact hstep _ op ⟨ops, rfl⟩ ih

theorem map_periodOf_modifyFirst (p : PayrollRecord → Bool) (f : PayrollRecord → PayrollRecord)
    (hf : ∀ r, (f r).month = r.month ∧ (f r).year = r.year) (rs : List PayrollRecord) :
    (modifyFirst p f rs).map periodOf = rs.map periodOf := by
  induction rs with
  | nil => rfl
  | cons r rs ih =>
    cases h : p r
    · simp [modifyFirst, h, ih]
    · simp [modifyFirst, h, periodOf, (hf r).1, (hf r).2]

theorem nodup_upsert (m y : Int) (f : PayrollRecord → PayrollRecord)
    (hf : ∀ r, (f r).month = r.month ∧ (f r).year = r.year) (rs : List PayrollRecord)
    (h : (rs.map periodOf).Nodup) : ((upsert m y f rs).map periodOf).Nodup := by
  unfold upsert
  cases hfind : rs.find? (samePeriod m y) with
  | some r0 =>
    simp only
    rw [map_periodOf_modifyFirst _ f hf]
    exact h
  | none =>
    simp only [List.map_append, List.map_cons, List.map_nil]
    rw [List.nodup_append]
    refine ⟨h, List.nodup_singleton _, ?_⟩
    intro a ha hb
    simp only [List.mem_singleton] at hb
    subst hb
    obtain ⟨r, hr, hrp⟩ := List.mem_map.mp ha
    have hn := List.find?_eq_none.mp hfind r hr
    apply hn
    rw [samePeriod_iff]
    simp only [periodOf, (hf _).1, (hf _).2, Prod.mk.injEq] at hrp
    exact hrp

theorem keysUnique_accumulate (s : PayrollSystem) (id m y : Int)
    (f : PayrollRecord → PayrollRecord)
    (hf : ∀ r, (f r).month = r.month ∧ (f r).year = r.year)
    (h : KeysUnique s) : KeysUnique (accumulate s id m y f) := by
  intro k rs hk
  rw [accumulate_payroll] at hk
  by_cases hkid : k = id
  · subst hkid
    simp only [if_true, Option.some.injEq] at hk
    subst hk
    apply nodup_upsert m y f hf
    cases hp : s.payroll_ k with
    | none => simp
    | some rs0 => exact h k rs0 hp
  · simp only [hkid, if_false] at hk
    exact h k rs hk

theorem keysUnique_applyOp (s : PayrollSystem) (op : Op) (h : KeysUnique s) :
    KeysUnique (applyOp s op) := by
  cases op with
  | addEmployee e0 => exact h
  | printPayslip id m y => exact h
  | recordWorkHours id m y a b =>
    exact keysUnique_accumulate s id m y
      (fun record => { record with regularHours := record.regularHours + a,
                                   overtimeHours := record.overtimeHours + b })
      (fun _ => ⟨rfl, rfl⟩) h
  | addAllowance id m y a =>
    exact keysUnique_accumulate s id m y
      (fun record => { record with allowances := record.allowances ++ [a] })
      (fun _ => ⟨rfl, rfl⟩) h
  | addDeduction id m y a =>
    exact keysUnique_accumulate s id m y
      (fun record => { record with deductions := record.deductions ++ [a] })
      (fun _ => ⟨rfl, rfl⟩) h
  | runPayroll m y =>
    intro k rs hk
    change (runPayrollLoop m y s.employees_ s.payroll_).1 k = some rs at hk
    rw [runPayrollLoop_fst] at hk
    cases hfe : findEmployeeIn s.employees_ k with
    | none =>
      rw [hfe] at hk
      exact h k rs hk
    | some e =>
      rw [hfe] at hk
      cases hp : s.payroll_ k with
      | none => simp [hp] at hk
      | some rs0 =>
        simp only [hp, Option.map_some', Option.some.injEq] at hk
        subst hk
        rw [map_periodOf_modifyFirst]
        · exact h k rs0 hp
        · intro r
          unfold finalizeOnce finalizeRecord
          split <;> exact ⟨rfl, rfl⟩

/-- C8: in every state reachable from the empty engine by the six
operations, no employee's vector holds two records with the same month and
year, so there is at most one record per `(employeeId, month, year)`. -/
theorem keysUnique_of_reachable (s : PayrollSystem) (h : Reachable s) :
    ∀ (id : Int) (rs : List PayrollRecord), s.payroll_ id = some rs →
      (rs.map (fun r => (r.month, r.year))).Nodup := by
  have key : KeysUnique s := by
    refine reachable_induction KeysUnique ?_ ?_ s h
    · intro k rs hk
      simp [PayrollSystem.empty] at hk
    · intro s0 op _ ih
      exact keysUnique_applyOp s0 op ih
  exact key

/-- Witness for C8: the state after register, hours, `runPayroll` and hours
again. -/
theorem keysUnique_of_reachable_witness :
    Reachable lateEditState
    ∧ ∀ (id : Int) (rs : List PayrollRecord), lateEditState.payroll_ id = some rs →
        (rs.map (fun r => (r.month, r.year))).Nodup :=
  ⟨⟨_, rfl⟩, keysUnique_of_reachable lateEditState ⟨_, rfl⟩⟩

/-! ## C9: find-or-create -/

theorem accumulate_createsExactly (s : PayrollSystem) (id m y : Int)
    (f : PayrollRecord → PayrollRecord) (h : findRecord s id m y = none) :
    CreatesExactly s (accumulate s id m y f) id (f { month := m, year := y }) := by
  refine ⟨rfl, ?_, ?_⟩
  · rw [accumulate_payroll]
    simp only [if_true]
    have hfind : ((s.payroll_ id).getD []).find? (samePeriod m y) = none := by
      unfold findRecord findRecordIn at h
      cases hp : s.payroll_ id with
      | none => rfl
      | some rs => simpa [hp] using h
    unfold upsert
    rw [hfind]
  · intro k hk
    rw [accumulate_payroll]
    simp only [hk, if_false]

theorem accumulate_createsNone (s : PayrollSystem) (id m y : Int)
    (f : PayrollRecord → PayrollRecord) (h : (findRecord s id m y).isSome = true) :
    CreatesNone s (accumulate s id m y f) := by
  refine ⟨rfl, ?_⟩
  intro k
  rw [accumulate_payroll]
  by_cases hk : k = id
  · subst hk
    simp only [if_true]
    unfold findRecord findRecordIn at h
    cases hp : s.payroll_ k with
    | none => simp [hp] at h
    | some rs =>
      rw [hp] at h
      simp only at h
      obtain ⟨r, hr⟩ := Option.isSome_iff_exists.mp h
      simp [upsert, hr, modifyFirst_length]
  · simp only [hk, if_false]

/-- C9: when the key `(id, m, y)` has no record, registered id or not, each
accumulation operation creates exactly one record, the fresh record of the
period with only its own update applied (the hours, the one allowance, the
one deduction; everything else zero, empty and not finalized); when the key
has a record, none of them creates a record. -/
theorem find_or_create (s : PayrollSystem) (id m y : Int) (a b : ℚ) (al d : Adjustment) :
    (findRecord s id m y = none →
      CreatesExactly s (recordWorkHours s id m y a b) id
        { month := m, year := y, regularHours := a, overtimeHours := b, allowances := [],
          deductions := [], grossPay := 0, netPay := 0, finalized := false }
      ∧ CreatesExactly s (addAllowance s id m y al) id
        { month := m, year := y, regularHours := 0, overtimeHours := 0, allowances := [al],
          deductions := [], grossPay := 0, netPay := 0, finalized := false }
      ∧ CreatesExactly s (addDeduction s id m y d) id
        { month := m, year := y, regularHours := 0, overtimeHours := 0, allowances := [],
          deductions := [d], grossPay := 0, netPay := 0, finalized := false })
    ∧ ((findRecord s id m y).isSome = true →
      CreatesNone s (recordWorkHours s id m y a b)
      ∧ CreatesNone s (addAllowance s id m y al)
      ∧ CreatesNone s (addDeduction s id m y d)) := by
  constructor
  · intro h
    refine ⟨?_, ?_, ?_⟩
    · have := accumulate_createsExactly s id m y
        (fun record => { record with regularHours := record.regularHours + a,
                                     overtimeHours := record.overtimeHours + b }) h
      simpa [recordWorkHours_eq] using this
    · have := accumulate_createsExactly s id m y
        (fun record => { record with allowances := record.allowances ++ [al] }) h
      simpa [addAllowance_eq] using this
    · have := accumulate_createsExactly s id m y
        (fun record => { record with deductions := record.deductions ++ [d] }) h
      simpa [addDeduction_eq] using this
  · intro h
    exact ⟨accumulate_createsNone s id m y _ h, accumulate_createsNone s id m y _ h,
      accumulate_createsNone s id m y _ h⟩

/-- Witness for C9: hours for the unregistered id 7 on the empty engine
create the record; hours on the existing record of the scenario create
none. -/
theorem find_or_create_witness :
    findRecord PayrollSystem.empty 7 5 2024 = none
    ∧ (findRecord scenarioState 1 5 2024).isSome = true
    ∧ CreatesExactly PayrollSystem.empty (recordWorkHours PayrollSystem.empty 7 5 2024 8 2) 7
        { month := 5, year := 2024, regularHours := 8, overtimeHours := 2, allowances := [],
          deductions := [], grossPay := 0, netPay := 0, finalized := false }
    ∧ CreatesNone scenarioState (recordWorkHours scenarioState 1 5 2024 8 2) := by
  have h1 : findRecord PayrollSystem.empty 7 5 2024 = none := rfl
  have h2 : (findRecord scenarioState 1 5 2024).isSome = true := by
    rw [scenarioState_findRecord]
    rfl
  exact ⟨h1, h2,
    ((find_or_create PayrollSystem.empty 7 5 2024 8 2 ⟨"", 0⟩ ⟨"", 0⟩).1 h1).1,
    ((find_or_create scenarioState 1 5 2024 8 2 ⟨"", 0⟩ ⟨"", 0⟩).2 h2).1⟩

/-! ## C10: the order of adjustment calls -/

theorem recEquiv_refl (r : PayrollRecord) : RecEquiv r r :=
  ⟨rfl, rfl, rfl, rfl, List.Perm.refl _, List.Perm.refl _, rfl, rfl, rfl⟩

theorem recEquiv_trans {r1 r2 r3 : PayrollRecord} (h1 : RecEquiv r1 r2) (h2 : RecEquiv r2 r3) :
    RecEquiv r1 r3 := by
  obtain ⟨a1, a2, a3, a4, a5, a6, a7, a8, a9⟩ := h1
  obtain ⟨b1, b2, b3, b4, b5, b6, b7, b8, b9⟩ := h2
  exact ⟨a1.trans b1, a2.trans b2, a3.trans b3, a4.trans b4, a5.trans b5, a6.trans b6,
    a7.trans b7, a8.trans b8, a9.trans b9⟩

theorem vecEquiv_refl (rs : List PayrollRecord) : List.Forall₂ RecEquiv rs rs := by
  induction rs with
  | nil => exact List.Forall₂.nil
  | cons r rs ih => exact List.Forall₂.cons (recEquiv_refl r) ih

theorem vecEquiv_trans {a b c : List PayrollRecord} (h1 : List.Forall₂ RecEquiv a b)
    (h2 : List.Forall₂ RecEquiv b c) : List.Forall₂ RecEquiv a c := by
  induction h1 generalizing c with
  | nil => cases h2; exact List.Forall₂.nil
  | cons hr _ ih =>
    cases h2 with
    | cons hr2 ht2 => exact List.Forall₂.cons (recEquiv_trans hr hr2) (ih ht2)

theorem mapEquiv_refl (p : Int → Option (List PayrollRecord)) : MapEquiv p p := by
  intro k
  cases h : p k with
  | none => left; exact ⟨rfl, rfl⟩
  | some rs => right; exact ⟨rs, rs, rfl, rfl, vecEquiv_refl rs⟩

theorem mapEquiv_trans {p1 p2 p3 : Int → Option (List PayrollRecord)}
    (h1 : MapEquiv p1 p2) (h2 : MapEquiv p2 p3) : MapEquiv p1 p3 := by
  intro k
  rcases h1 k with ⟨a, b⟩ | ⟨rs1, rs2, a, b, c⟩
  · rcases h2 k with ⟨_, d⟩ | ⟨rs3, rs4, d, _, _⟩
    · left; exact ⟨a, d⟩
    · rw [b] at d; cases d
  · rcases h2 k with ⟨d, _⟩ | ⟨rs3, rs4, d, e, f⟩
    · rw [b] at d; cases d
    · rw [b] at d
      cases d
      right
      exact ⟨rs1, rs4, a, e, vecEquiv_trans c f⟩

theorem sysEquiv_refl (s : PayrollSystem) : SysEquiv s s := ⟨rfl, mapEquiv_refl _⟩

theorem sysEquiv_trans {s1 s2 s3 : PayrollSystem} (h1 : SysEquiv s1 s2) (h2 : SysEquiv s2 s3) :
    SysEquiv s1 s3 := ⟨h1.1.trans h2.1, mapEquiv_trans h1.2 h2.2⟩

theorem accumulateAmounts_perm {l1 l2 : List Adjustment} (h : l1.Perm l2) :
    accumulateAmounts l1 = accumulateAmounts l2 := by
  rw [accumulateAmounts_eq_sum, accumulateAmounts_eq_sum]
  exact (h.map _).sum_eq

theorem samePeriod_of_recEquiv (m y : Int) {r1 r2 : PayrollRecord} (h : RecEquiv r1 r2) :
    samePeriod m y r1 = samePeriod m y r2 := by
  simp [samePeriod, h.1, h.2.1]

theorem upsert_nil (m y : Int) (f : PayrollRecord → PayrollRecord) :
    upsert m y f [] = [f { month := m, year := y }] := rfl

theorem upsert_cons (m y : Int) (f : PayrollRecord → PayrollRecord) (r : PayrollRecord)
    (rs : List PayrollRecord) :
    upsert m y f (r :: rs) = if samePeriod m y r then f r :: rs else r :: upsert m y f rs := by
  unfold upsert
  cases h : samePeriod m y r
  · simp only [List.find?_cons, h, Bool.false_eq_true, if_false, modifyFirst]
    cases rs.find? (samePeriod m y) <;> rfl
  · simp [modifyFirst, h]

theorem upsert_equiv (m y : Int) (f : PayrollRecord → PayrollRecord)
    (hf : ∀ r1 r2, RecEquiv r1 r2 → RecEquiv (f r1) (f r2))
    {rs1 rs2 : List PayrollRecord} (h : List.Forall₂ RecEquiv rs1 rs2) :
    List.Forall₂ RecEquiv (upsert m y f rs1) (upsert m y f rs2) := by
  induction h with
  | nil =>
    rw [upsert_nil]
    exact List.Forall₂.cons (hf _ _ (recEquiv_refl _)) List.Forall₂.nil
  | cons hr ht ih =>
    rw [upsert_cons, upsert_cons, samePeriod_of_recEquiv m y hr]
    split
    · exact List.Forall₂.cons (hf _ _ hr) ht
    · exact List.Forall₂.cons hr ih

theorem upsert_comm (m y : Int) (f g : PayrollRecord → PayrollRecord)
    (hf : ∀ r, samePeriod m y (f r) = samePeriod m y r)
    (hg : ∀ r, samePeriod m y (g r) = samePeriod m y r)
    (hfg : ∀ r, RecEquiv (g (f r)) (f (g r))) (rs : List PayrollRecord) :
    List.Forall₂ RecEquiv (upsert m y g (upsert m y f rs)) (upsert m y f (upsert m y g rs)) := by
  induction rs with
  | nil =>
    simp only [upsert_nil, upsert_cons, hf, hg, samePeriod_fresh, if_true]
    exact List.Forall₂.cons (hfg _) List.Forall₂.nil
  | cons r rs ih =>
    cases h : samePeriod m y r
    · simp only [upsert_cons, h, Bool.false_eq_true, if_false]
      exact List.Forall₂.cons (recEquiv_refl r) ih
    · simp only [upsert_cons, h, if_true, hf, hg]
      exact List.Forall₂.cons (hfg r) (vecEquiv_refl rs)

theorem accumulate_equiv (id m y : Int) (f : PayrollRecord → PayrollRecord)
    (hf : ∀ r1 r2, RecEquiv r1 r2 → RecEquiv (f r1) (f r2))
    {s1 s2 : PayrollSystem} (h : SysEquiv s1 s2) :
    SysEquiv (accumulate s1 id m y f) (accumulate s2 id m y f) := by
  refine ⟨h.1, ?_⟩
  intro k
  rw [accumulate_payroll, accumulate_payroll]
  by_cases hk : k = id
  · subst hk
    simp only [if_true]
    right
    refine ⟨_, _, rfl, rfl, upsert_equiv m y f hf ?_⟩
    rcases h.2 k with ⟨a, b⟩ | ⟨rs1, rs2, a, b, c⟩
    · rw [a, b]
      exact List.Forall₂.nil
    · rw [a, b]
      exact c
  · simp only [hk, if_false]
    exact h.2 k

theorem accumulate_comm (s : PayrollSystem) (id m y : Int) (f g : PayrollRecord → PayrollRecord)
    (hf : ∀ r, samePeriod m y (f r) = samePeriod m y r)
    (hg : ∀ r, samePeriod m y (g r) = samePeriod m y r)
    (hfg : ∀ r, RecEquiv (g (f r)) (f (g r))) :
    SysEquiv (accumulate (accumulate s id m y f) id m y g)
      (accumulate (accumulate s id m y g) id m y f) := by
  refine ⟨rfl, ?_⟩
  intro k
  simp only [accumulate_payroll]
  by_cases hk : k = id
  · subst hk
    simp only [if_true, Option.getD_some]
    right
    exact ⟨_, _, rfl, rfl, upsert_comm m y f g hf hg hfg _⟩
  · simp only [hk, if_false]
    exact mapEquiv_refl _ k

theorem applyAdjustment_equiv (id m y : Int) (c : AdjustmentCall) {s1 s2 : PayrollSystem}
    (h : SysEquiv s1 s2) :
    SysEquiv (applyAdjustment id m y s1 c) (applyAdjustment id m y s2 c) := by
  cases c with
  | allowance a =>
    exact accumulate_equiv id m y
      (fun record => { record with allowances := record.allowances ++ [a] })
      (fun r1 r2 hr => ⟨hr.1, hr.2.1, hr.2.2.1, hr.2.2.2.1, hr.2.2.2.2.1.append_right [a],
        hr.2.2.2.2.2.1, hr.2.2.2.2.2.2.1, hr.2.2.2.2.2.2.2.1, hr.2.2.2.2.2.2.2.2⟩) h
  | deduction d =>
    exact accumulate_equiv id m y
      (fun record => { record with deductions := record.deductions ++ [d] })
      (fun r1 r2 hr => ⟨hr.1, hr.2.1, hr.2.2.1, hr.2.2.2.1, hr.2.2.2.2.1,
        hr.2.2.2.2.2.1.append_right [d], hr.2.2.2.2.2.2.1, hr.2.2.2.2.2.2.2.1,
        hr.2.2.2.2.2.2.2.2⟩) h

theorem applyAdjustment_comm (id m y : Int) (c d : AdjustmentCall) (s : PayrollSystem) :
    SysEquiv (applyAdjustment id m y (applyAdjustment id m y s c) d)
      (applyAdjustment id m y (applyAdjustment id m y s d) c) := by
  have hperm : ∀ (l : List Adjustment) (a b : Adjustment),
      (l ++ [a] ++ [b]).Perm (l ++ [b] ++ [a]) := by
    intro l a b
    simp only [List.append_assoc, List.singleton_append]
    exact List.Perm.append_left l (List.Perm.swap b a [])
  cases c <;> cases d <;>
    refine accumulate_comm s id m y _ _ (fun _ => rfl) (fun _ => rfl) ?_ <;>
    intro r
  · exact ⟨rfl, rfl, rfl, rfl, hperm _ _ _, List.Perm.refl _, rfl, rfl, rfl⟩
  · exact recEquiv_refl _
  · exact recEquiv_refl _
  · exact ⟨rfl, rfl, rfl, rfl, List.Perm.refl _, hperm _ _ _, rfl, rfl, rfl⟩

theorem applyAdjustments_equiv (id m y : Int) (calls : List AdjustmentCall)
    {s1 s2 : PayrollSystem} (h : SysEquiv s1 s2) :
    SysEquiv (applyAdjustments s1 id m y calls) (applyAdjustments s2 id m y calls) := by
  induction calls generalizing s1 s2 with
  | nil => exact h
  | cons c cs ih => exact ih (applyAdjustment_equiv id m y c h)

theorem applyAdjustments_perm (id m y : Int) {calls1 calls2 : List AdjustmentCall}
    (hp : calls1.Perm calls2) {s1 s2 : PayrollSystem} (h : SysEquiv s1 s2) :
    SysEquiv (applyAdjustments s1 id m y calls1) (applyAdjustments s2 id m y calls2) := by
  induction hp generalizing s1 s2 with
  | nil => exact h
  | cons c _ ih => exact ih (applyAdjustment_equiv id m y c h)
  | swap c d l =>
    refine applyAdjustments_equiv id m y l ?_
    exact sysEquiv_trans (applyAdjustment_comm id m y d c s1)
      (applyAdjustment_equiv id m y d (applyAdjustment_equiv id m y c h))
  | trans _ _ ih1 ih2 => exact sysEquiv_trans (ih1 (sysEquiv_refl s1)) (ih2 h)

theorem grossOf_equiv (e : Employee) {r1 r2 : PayrollRecord} (h : RecEquiv r1 r2) :
    grossOf e r1 = grossOf e r2 := by
  unfold grossOf
  rw [h.2.2.1, h.2.2.2.1, accumulateAmounts_perm h.2.2.2.2.1]

theorem netOf_equiv (e : Employee) {r1 r2 : PayrollRecord} (h : RecEquiv r1 r2) :
    netOf e r1 = netOf e r2 := by
  unfold netOf taxOf
  rw [grossOf_equiv e h, accumulateAmounts_perm h.2.2.2.2.2.1]

theorem finalizeOnce_equiv (e : Employee) {r1 r2 : PayrollRecord} (h : RecEquiv r1 r2) :
    RecEquiv (finalizeOnce e r1) (finalizeOnce e r2) := by
  unfold finalizeOnce
  rw [h.2.2.2.2.2.2.2.2]
  split
  · exact h
  · exact ⟨h.1, h.2.1, h.2.2.1, h.2.2.2.1, h.2.2.2.2.1, h.2.2.2.2.2.1, grossOf_equiv e h,
      netOf_equiv e h, rfl⟩

theorem modifyFirst_equiv (m y : Int) (f : PayrollRecord → PayrollRecord)
    (hf : ∀ r1 r2, RecEquiv r1 r2 → RecEquiv (f r1) (f r2))
    {rs1 rs2 : List PayrollRecord} (h : List.Forall₂ RecEquiv rs1 rs2) :
    List.Forall₂ RecEquiv (modifyFirst (samePeriod m y) f rs1)
      (modifyFirst (samePeriod m y) f rs2) := by
  induction h with
  | nil => exact List.Forall₂.nil
  | cons hr ht ih =>
    simp only [modifyFirst, samePeriod_of_recEquiv m y hr]
    split
    · exact List.Forall₂.cons (hf _ _ hr) ht
    · exact List.Forall₂.cons hr ih

theorem find_equiv (m y : Int) {rs1 rs2 : List PayrollRecord}
    (h : List.Forall₂ RecEquiv rs1 rs2) :
    (rs1.find? (samePeriod m y) = none ∧ rs2.find? (samePeriod m y) = none)
      ∨ ∃ r1 r2, rs1.find? (samePeriod m y) = some r1 ∧ rs2.find? (samePeriod m y) = some r2
          ∧ RecEquiv r1 r2 := by
  induction h with
  | nil => left; exact ⟨rfl, rfl⟩
  | cons hr ht ih =>
    rename_i a b l1 l2
    simp only [List.find?_cons, samePeriod_of_recEquiv m y hr]
    cases hb : samePeriod m y b
    · exact ih
    · right
      exact ⟨a, b, rfl, rfl, hr⟩

theorem findRecordIn_equiv {p1 p2 : Int → Option (List PayrollRecord)} (h : MapEquiv p1 p2)
    (k m y : Int) :
    (findRecordIn p1 k m y = none ∧ findRecordIn p2 k m y = none)
      ∨ ∃ r1 r2, findRecordIn p1 k m y = some r1 ∧ findRecordIn p2 k m y = some r2
          ∧ RecEquiv r1 r2 := by
  unfold findRecordIn
  rcases h k with ⟨a, b⟩ | ⟨rs1, rs2, a, b, c⟩
  · left; rw [a, b]; exact ⟨rfl, rfl⟩
  · rw [a, b]
    exact find_equiv m y c

theorem runPayrollStep_equiv (m y : Int) (e : Employee)
    {p1 p2 : Int → Option (List PayrollRecord)} (h : MapEquiv p1 p2) :
    (runPayrollStep m y e p1).2 = (runPayrollStep m y e p2).2
      ∧ MapEquiv (runPayrollStep m y e p1).1 (runPayrollStep m y e p2).1 := by
  constructor
  · unfold runPayrollStep
    rcases findRecordIn_equiv h e.id m y with ⟨a, b⟩ | ⟨r1, r2, a, b, c⟩
    · rw [a, b]
    · rw [a, b]
      simp only [c.2.2.2.2.2.2.2.2]
      split
      · rfl
      · simp only [c.2.2.1, c.2.2.2.1, accumulateAmounts_perm c.2.2.2.2.1,
          accumulateAmounts_perm c.2.2.2.2.2.1, taxOf, grossOf_equiv e c, netOf_equiv e c]
  · rw [runPayrollStep_fst, runPayrollStep_fst]
    intro k
    rw [writeRecordIn_apply, writeRecordIn_apply]
    by_cases hk : k = e.id
    · simp only [hk, if_true]
      rcases h e.id with ⟨a, b⟩ | ⟨rs1, rs2, a, b, c⟩
      · left; rw [a, b]; exact ⟨rfl, rfl⟩
      · right
        rw [a, b]
        exact ⟨_, _, rfl, rfl,
          modifyFirst_equiv m y _ (fun _ _ hr => finalizeOnce_equiv e hr) c⟩
    · simp only [hk, if_false]
      exact h k

theorem runPayrollLoop_equiv (m y : Int) (es : List Employee)
    {p1 p2 : Int → Option (List PayrollRecord)} (h : MapEquiv p1 p2) :
    (runPayrollLoop m y es p1).2 = (runPayrollLoop m y es p2).2
      ∧ MapEquiv (runPayrollLoop m y es p1).1 (runPayrollLoop m y es p2).1 := by
  induction es generalizing p1 p2 with
  | nil => exact ⟨rfl, h⟩
  | cons e es ih =>
    have hs := runPayrollStep_equiv m y e h
    have hl := ih hs.2
    simp only [runPayrollLoop]
    exact ⟨by rw [hs.1, hl.1], hl.2⟩

theorem runPayroll_equiv (m y : Int) {s1 s2 : PayrollSystem} (h : SysEquiv s1 s2) :
    (runPayroll s1 m y).2 = (runPayroll s2 m y).2
      ∧ SysEquiv (runPayroll s1 m y).1 (runPayroll s2 m y).1 := by
  unfold runPayroll
  simp only
  rw [← h.1]
  have hl := runPayrollLoop_equiv m y s1.employees_ h.2
  exact ⟨hl.1, rfl, hl.2⟩

/-- C10: when two lists of adjustment calls on a key (allowances and
deductions, so in particular allowances only or deductions only) are
permutations of each other, `runPayroll` for the period prints the same
report after either (the same sums of allowances and deductions, tax and net
pay for every roster entry), and every record of the engine then has the
same sum of allowances, sum of deductions, `grossPay` and `netPay`. -/
theorem adjustment_order_irrelevant (s : PayrollSystem) (id m y : Int)
    (calls1 calls2 : List AdjustmentCall) (h : calls1.Perm calls2) :
    (runPayroll (applyAdjustments s id m y calls1) m y).2
        = (runPayroll (applyAdjustments s id m y calls2) m y).2
    ∧ ∀ k m2 y2 : Int,
        (findRecord (runPayroll (applyAdjustments s id m y calls1) m y).1 k m2 y2).map payTotals
          = (findRecord (runPayroll (applyAdjustments s id m y calls2) m y).1 k m2 y2).map
              payTotals := by
  have h1 := applyAdjustments_perm id m y h (sysEquiv_refl s)
  have h2 := runPayroll_equiv m y h1
  refine ⟨h2.1, ?_⟩
  intro k m2 y2
  unfold findRecord
  rcases findRecordIn_equiv h2.2.2 k m2 y2 with ⟨a, b⟩ | ⟨r1, r2, a, b, c⟩
  · rw [a, b]
  · rw [a, b]
    simp only [Option.map_some', payTotals, accumulateAmounts_perm c.2.2.2.2.1,
      accumulateAmounts_perm c.2.2.2.2.2.1, c.2.2.2.2.2.2.1, c.2.2.2.2.2.2.2.1]

theorem allowances100Then250_report :
    (runPayroll (applyAdjustments rosterOnlyState 1 5 2024 allowances100Then250) 5 2024).2
      = [PayrollOutcome.computed scenarioEmployee 0 0 350 0 (357825 / 100) (1477175 / 100)] := by
  simp [rosterOnlyState, allowances100Then250, applyAdjustments, applyAdjustment, addAllowance,
    addEmployee, PayrollSystem.empty, ensureRecord, writeRecordIn, modifyFirst, samePeriod,
    runPayroll, runPayrollLoop, runPayrollStep, findRecordIn, grossOf, netOf, taxOf,
    accumulateAmounts, scenarioEmployee]
  norm_num

/-- Witness for C10: allowances 100 then 250, and 250 then 100, both give a
sum of allowances of 350 in the report of `runPayroll(5, 2024)`. -/
theorem adjustment_order_irrelevant_witness :
    allowances100Then250.Perm allowances250Then100
    ∧ (runPayroll (applyAdjustments rosterOnlyState 1 5 2024 allowances100Then250) 5 2024).2
        = [PayrollOutcome.computed scenarioEmployee 0 0 350 0 (357825 / 100) (1477175 / 100)]
    ∧ (runPayroll (applyAdjustments rosterOnlyState 1 5 2024 allowances250Then100) 5 2024).2
        = [PayrollOutcome.computed scenarioEmployee 0 0 350 0 (357825 / 100) (1477175 / 100)] :=
  ⟨List.Perm.swap _ _ _, allowances100Then250_report,
    (adjustment_order_irrelevant rosterOnlyState 1 5 2024 allowances100Then250
      allowances250Then100 (List.Perm.swap _ _ _)).1.symm.trans allowances100Then250_report⟩

/-! ## C11: no payslip before `runPayroll` -/

theorem periodOpen_accumulate (m y : Int) (s : PayrollSystem) (id m0 y0 : Int)
    (f : PayrollRecord → PayrollRecord)
    (hf : ∀ r, (f r).month = r.month ∧ (f r).year = r.year ∧ (f r).finalized = r.finalized)
    (h : PeriodOpen m y s) : PeriodOpen m y (accumulate s id m0 y0 f) := by
  intro k rs r hk hr hm hy
  rw [accumulate_payroll] at hk
  by_cases hkid : k = id
  · subst hkid
    simp only [if_true, Option.some.injEq] at hk
    subst hk
    have hold : ∀ r0, r0 ∈ (s.payroll_ k).getD [] → r0.month = m → r0.year = y →
        r0.finalized = false := by
      intro r0 hmem h1 h2
      cases hp : s.payroll_ k with
      | none => simp [hp] at hmem
      | some rs0 =>
        rw [hp] at hmem
        exact h k rs0 r0 hp hmem h1 h2
    rcases mem_upsert m0 y0 f _ r hr with h1 | ⟨r0, h1, h2⟩ | ⟨_, h2⟩
    · exact hold r h1 hm hy
    · subst h2
      rw [(hf r0).2.2]
      rw [(hf r0).1] at hm
      rw [(hf r0).2.1] at hy
      exact hold r0 (List.mem_of_find?_eq_some h1) hm hy
    · subst h2
      rw [(hf _).2.2]
  · simp only [hkid, if_false] at hk
    exact h k rs r hk hr hm hy

theorem periodOpen_runPayroll_other (m y : Int) (s : PayrollSystem) (m0 y0 : Int)
    (hne : ¬ (m0 = m ∧ y0 = y)) (h : PeriodOpen m y s) :
    PeriodOpen m y (runPayroll s m0 y0).1 := by
  intro k rs r hk hr hm hy
  change (runPayrollLoop m0 y0 s.employees_ s.payroll_).1 k = some rs at hk
  rw [runPayrollLoop_fst] at hk
  cases hfe : findEmployeeIn s.employees_ k with
  | none =>
    rw [hfe] at hk
    exact h k rs r hk hr hm hy
  | some e =>
    rw [hfe] at hk
    cases hp : s.payroll_ k with
    | none => simp [hp] at hk
    | some rs0 =>
      simp only [hp, Option.map_some', Option.some.injEq] at hk
      subst hk
      rcases mem_modifyFirst _ _ _ _ hr with h1 | ⟨r0, h1, h2⟩
      · exact h k rs0 r hp h1 hm hy
      · exfalso
        have hsp := List.find?_some h1
        rw [samePeriod_iff] at hsp
        have hsp2 : samePeriod m0 y0 r = true := by
          rw [h2, samePeriod_finalizeOnce, samePeriod_iff]
          exact hsp
        rw [samePeriod_iff] at hsp2
        exact hne ⟨hsp2.1.symm.trans hm, hsp2.2.symm.trans hy⟩

theorem printPayslip_of_open (s : PayrollSystem) (id m y : Int)
    (hreg : ∃ e ∈ s.employees_, e.id = id)
    (h : ∀ r, findRecord s id m y = some r → r.finalized = false) :
    printPayslip s id m y = PayslipResult.notFinalized := by
  unfold printPayslip findEmployee findRecordConst
  unfold findRecord at h
  cases he : findEmployeeIn s.employees_ id with
  | none =>
    obtain ⟨e, he1, he2⟩ := hreg
    exact absurd he2 ((findEmployeeIn_eq_none_iff _ _).mp he e he1)
  | some e =>
    cases hr : findRecordIn s.payroll_ id m y with
    | none => rfl
    | some r => simp [h r hr]

/-- C11: after any sequence of operations from the empty engine that
contains no `runPayroll(m, y)` for the period, whatever hours and adjustments
were accumulated and whatever other periods were run, no record of the
period is finalized and `printPayslip(id, m, y)` prints "not finalized" for
every registered id. -/
theorem not_finalized_before_runPayroll (m y : Int) (ops : List Op)
    (h : ∀ op ∈ ops, op ≠ Op.runPayroll m y) :
    (∀ (id : Int) (rs : List PayrollRecord) (r : PayrollRecord),
      (runOps ops).payroll_ id = some rs → r ∈ rs → r.month = m → r.year = y →
        r.finalized = false)
    ∧ ∀ id : Int, (∃ e ∈ (runOps ops).employees_, e.id = id) →
        printPayslip (runOps ops) id m y = PayslipResult.notFinalized := by
  have key : PeriodOpen m y (runOps ops) := by
    induction ops using List.reverseRecOn with
    | nil =>
      intro k rs r hk
      simp [runOps, PayrollSystem.empty] at hk
    | append_singleton ops op ih =>
      have ih2 := ih (fun o ho => h o (List.mem_append_left _ ho))
      have hop := h op (by simp)
      simp only [runOps, List.foldl_append, List.foldl_cons, List.foldl_nil]
      change PeriodOpen m y (applyOp (runOps ops) op)
      cases op with
      | addEmployee e0 => exact ih2
      | printPayslip id0 m0 y0 => exact ih2
      | recordWorkHours id0 m0 y0 a b =>
        exact periodOpen_accumulate m y _ id0 m0 y0
          (fun record => { record with regularHours := record.regularHours + a,
                                       overtimeHours := record.overtimeHours + b })
          (fun _ => ⟨rfl, rfl, rfl⟩) ih2
      | addAllowance id0 m0 y0 a =>
        exact periodOpen_accumulate m y _ id0 m0 y0
          (fun record => { record with allowances := record.allowances ++ [a] })
          (fun _ => ⟨rfl, rfl, rfl⟩) ih2
      | addDeduction id0 m0 y0 a =>
        exact periodOpen_accumulate m y _ id0 m0 y0
          (fun record => { record with deductions := record.deductions ++ [a] })
          (fun _ => ⟨rfl, rfl, rfl⟩) ih2
      | runPayroll m0 y0 =>
        apply periodOpen_runPayroll_other m y _ m0 y0 _ ih2
        intro hc
        apply hop
        rw [hc.1, hc.2]
  refine ⟨key, ?_⟩
  intro id hreg
  apply printPayslip_of_open _ id m y hreg
  intro r hf
  unfold findRecord findRecordIn at hf
  cases hp : (runOps ops).payroll_ id with
  | none => simp [hp] at hf
  | some rs =>
    rw [hp] at hf
    simp only at hf
    have hsp := List.find?_some hf
    rw [samePeriod_iff] at hsp
    exact key id rs r hp (List.mem_of_find?_eq_some hf) hsp.1 hsp.2

/-- Witness for C11: hours and an allowance for 5/2024, `runPayroll` for
6/2024 only; the payslip of employee 1 for 5/2024 is "not finalized". -/
theorem not_finalized_before_runPayroll_witness :
    (∀ op ∈ noRunOps, op ≠ Op.runPayroll 5 2024)
    ∧ (∃ e ∈ (runOps noRunOps).employees_, e.id = 1)
    ∧ printPayslip (runOps noRunOps) 1 5 2024 = PayslipResult.notFinalized := by
  have h1 : ∀ op ∈ noRunOps, op ≠ Op.runPayroll 5 2024 := by
    intro op hop
    simp only [noRunOps, List.mem_cons, List.mem_singleton, List.mem_nil_iff, or_false] at hop
    rcases hop with rfl | rfl | rfl | rfl | rfl | rfl <;> intro hc <;> simp at hc
  have h2 : ∃ e ∈ (runOps noRunOps).employees_, e.id = 1 := by
    refine ⟨scenarioEmployee, ?_, rfl⟩
    simp [runOps, noRunOps, applyOp, addEmployee, recordWorkHours, addAllowance, ensureRecord,
      runPayroll, PayrollSystem.empty]
  exact ⟨h1, h2, (not_finalized_before_runPayroll 5 2024 noRunOps h1).2 1 h2⟩

/-! ## C12: roster order -/

theorem findEmployeeIn_eq_some_iff (es : List Employee) (h : (es.map (fun e => e.id)).Nodup)
    (k : Int) (e : Employee) :
    findEmployeeIn es k = some e ↔ e ∈ es ∧ e.id = k := by
  unfold findEmployeeIn
  constructor
  · intro hf
    exact ⟨List.mem_of_find?_eq_some hf, by simpa using List.find?_some hf⟩
  · intro ⟨hmem, hid⟩
    induction es with
    | nil => simp at hmem
    | cons a es ih =>
      simp only [List.map_cons, List.nodup_cons] at h
      by_cases ha : a.id = k
      · simp only [List.find?_cons, ha, beq_self_eq_true]
        rcases List.mem_cons.mp hmem with h1 | h1
        · rw [h1]
        · exfalso
          apply h.1
          rw [ha, ← hid]
          exact List.mem_map_of_mem (fun e => e.id) h1
      · have hb : (a.id == k) = false := by simpa using ha
        simp only [List.find?_cons, hb]
        rcases List.mem_cons.mp hmem with h1 | h1
        · rw [h1] at hid
          exact absurd hid ha
        · exact ih h.2 h1

theorem findEmployeeIn_perm {es1 es2 : List Employee} (hp : es1.Perm es2)
    (h : (es1.map (fun e => e.id)).Nodup) (k : Int) :
    findEmployeeIn es1 k = findEmployeeIn es2 k := by
  have h2 : (es2.map (fun e => e.id)).Nodup := (hp.map _).nodup_iff.mp h
  cases hf : findEmployeeIn es1 k with
  | some e =>
    rw [findEmployeeIn_eq_some_iff es1 h] at hf
    exact ((findEmployeeIn_eq_some_iff es2 h2 k e).mpr ⟨hp.mem_iff.mp hf.1, hf.2⟩).symm
  | none =>
    cases hf2 : findEmployeeIn es2 k with
    | none => rfl
    | some e =>
      rw [findEmployeeIn_eq_some_iff es2 h2] at hf2
      rw [(findEmployeeIn_eq_some_iff es1 h k e).mpr ⟨hp.mem_iff.mpr hf2.1, hf2.2⟩] at hf
      cases hf

theorem runPayrollStep_snd_congr (m y : Int) (e : Employee)
    (p1 p2 : Int → Option (List PayrollRecord)) (h : p1 e.id = p2 e.id) :
    (runPayrollStep m y e p1).2 = (runPayrollStep m y e p2).2 := by
  have hf : findRecordIn p1 e.id m y = findRecordIn p2 e.id m y := by
    unfold findRecordIn
    rw [h]
  unfold runPayrollStep
  rw [hf]
  cases findRecordIn p2 e.id m y with
  | none => rfl
  | some r => cases hfin : r.finalized <;> simp [hfin]

theorem runPayrollLoop_snd_of_nodup (m y : Int) (es : List Employee)
    (h : (es.map (fun e => e.id)).Nodup) (p : Int → Option (List PayrollRecord)) :
    (runPayrollLoop m y es p).2 = es.map (fun e => (runPayrollStep m y e p).2) := by
  induction es generalizing p with
  | nil => rfl
  | cons a es ih =>
    simp only [List.map_cons, List.nodup_cons] at h
    simp only [runPayrollLoop, List.map_cons]
    rw [ih h.2]
    congr 1
    apply List.map_congr_left
    intro e he
    apply runPayrollStep_snd_congr
    rw [runPayrollStep_fst, writeRecordIn_apply]
    have hne : e.id ≠ a.id := by
      intro hc
      apply h.1
      rw [← hc]
      exact List.mem_map_of_mem (fun e => e.id) he
    simp only [hne, if_false]

/-- C12 (amended): for two engines with the same ledger whose rosters are
permutations of each other and hold no two entries with the same id,
`runPayroll(m, y)` leaves the same ledger, every roster entry gets the
outcome the loop body gives it on the initial ledger, whatever its position,
and the two reports are permutations of each other. -/
theorem runPayroll_roster_order (s1 s2 : PayrollSystem) (m y : Int)
    (hl : s1.payroll_ = s2.payroll_) (hp : s1.employees_.Perm s2.employees_)
    (hn : (s1.employees_.map (fun e => e.id)).Nodup) :
    (runPayroll s1 m y).1.payroll_ = (runPayroll s2 m y).1.payroll_
    ∧ (runPayroll s1 m y).2
        = s1.employees_.map (fun e => (runPayrollStep m y e s1.payroll_).2)
    ∧ (runPayroll s2 m y).2
        = s2.employees_.map (fun e => (runPayrollStep m y e s1.payroll_).2)
    ∧ (runPayroll s1 m y).2.Perm (runPayroll s2 m y).2 := by
  have hn2 : (s2.employees_.map (fun e => e.id)).Nodup := (hp.map _).nodup_iff.mp hn
  have h1 : (runPayroll s1 m y).2
      = s1.employees_.map (fun e => (runPayrollStep m y e s1.payroll_).2) :=
    runPayrollLoop_snd_of_nodup m y _ hn _
  have h2 : (runPayroll s2 m y).2
      = s2.employees_.map (fun e => (runPayrollStep m y e s1.payroll_).2) := by
    rw [hl]
    exact runPayrollLoop_snd_of_nodup m y _ hn2 _
  refine ⟨?_, h1, h2, ?_⟩
  · funext k
    change (runPayrollLoop m y s1.employees_ s1.payroll_).1 k
      = (runPayrollLoop m y s2.employees_ s2.payroll_).1 k
    rw [runPayrollLoop_fst, runPayrollLoop_fst, findEmployeeIn_perm hp hn k, hl]
  · rw [h1, h2]
    exact hp.map _

theorem pairState_hyps :
    pairState.payroll_ = pairSwappedState.payroll_
    ∧ pairState.employees_.Perm pairSwappedState.employees_
    ∧ (pairState.employees_.map (fun e => e.id)).Nodup := by
  refine ⟨rfl, ?_, ?_⟩
  · exact List.Perm.swap _ _ _
  · simp [pairState, runOps, applyOp, addEmployee, recordWorkHours, ensureRecord,
      PayrollSystem.empty, scenarioEmployee, secondEmployee]

/-- Witness for C12 (amended): employees 1 and 2 registered in either order,
hours for employee 1. -/
theorem runPayroll_roster_order_witness :
    pairState.payroll_ = pairSwappedState.payroll_
    ∧ pairState.employees_.Perm pairSwappedState.employees_
    ∧ (pairState.employees_.map (fun e => e.id)).Nodup
    ∧ (runPayroll pairState 5 2024).1.payroll_ = (runPayroll pairSwappedState 5 2024).1.payroll_
    ∧ (runPayroll pairState 5 2024).2.Perm (runPayroll pairSwappedState 5 2024).2 :=
  ⟨pairState_hyps.1, pairState_hyps.2.1, pairState_hyps.2.2,
    (runPayroll_roster_order pairState pairSwappedState 5 2024 pairState_hyps.1
      pairState_hyps.2.1 pairState_hyps.2.2).1,
    (runPayroll_roster_order pairState pairSwappedState 5 2024 pairState_hyps.1
      pairState_hyps.2.1 pairState_hyps.2.2).2.2.2⟩

/-- C12 as stated fails: with two roster entries of id 1 and the same
ledger, the order of the two entries decides whose salary enters the stored
`grossPay` (44250 against 46250) and which of the two gets the computed
line. -/
theorem runPayroll_roster_order_fails_with_twins :
    twinFirstState.payroll_ = twinLastState.payroll_
    ∧ twinFirstState.employees_.Perm twinLastState.employees_
    ∧ (findRecord (runPayroll twinFirstState 5 2024).1 1 5 2024).map (fun r => r.grossPay)
        = some 44250
    ∧ (findRecord (runPayroll twinLastState 5 2024).1 1 5 2024).map (fun r => r.grossPay)
        = some 46250
    ∧ (runPayroll twinFirstState 5 2024).2[0]?
        = some (PayrollOutcome.computed scenarioEmployee 160 10 0 0 (862875 / 100)
            (3562125 / 100))
    ∧ (runPayroll twinLastState 5 2024).2[1]?
        = some (PayrollOutcome.alreadyFinalized scenarioEmployee) := by
  refine ⟨rfl, List.Perm.swap _ _ _, ?_, ?_, ?_, ?_⟩
  · simp [twinFirstState, runOps, applyOp, addEmployee, recordWorkHours, ensureRecord,
      PayrollSystem.empty, scenarioEmployee, scenarioEmployeeTwin, writeRecordIn, modifyFirst,
      samePeriod, runPayroll, runPayrollLoop, runPayrollStep, findRecord, findRecordIn,
      finalizeRecord, grossOf, netOf, taxOf, accumulateAmounts]
    norm_num
  · simp [twinLastState, runOps, applyOp, addEmployee, recordWorkHours, ensureRecord,
      PayrollSystem.empty, scenarioEmployee, scenarioEmployeeTwin, writeRecordIn, modifyFirst,
      samePeriod, runPayroll, runPayrollLoop, runPayrollStep, findRecord, findRecordIn,
      finalizeRecord, grossOf, netOf, taxOf, accumulateAmounts]
    norm_num
  · simp [twinFirstState, runOps, applyOp, addEmployee, recordWorkHours, ensureRecord,
      PayrollSystem.empty, scenarioEmployee, scenarioEmployeeTwin, writeRecordIn, modifyFirst,
      samePeriod, runPayroll, runPayrollLoop, runPayrollStep, findRecord, findRecordIn,
      finalizeRecord, grossOf, netOf, taxOf, accumulateAmounts]
    norm_num
  · simp [twinLastState, runOps, applyOp, addEmployee, recordWorkHours, ensureRecord,
      PayrollSystem.empty, scenarioEmployee, scenarioEmployeeTwin, writeRecordIn, modifyFirst,
      samePeriod, runPayroll, runPayrollLoop, runPayrollStep, findRecord, findRecordIn,
      finalizeRecord, grossOf, netOf, taxOf, accumulateAmounts]

/-! ## C13: the payslip against `runPayroll` -/

theorem findRecord_runPayroll_first (s : PayrollSystem) (m y : Int) (e : Employee)
    (r : PayrollRecord) (he : findEmployee s e.id = some e)
    (hr : findRecord s e.id m y = some r) (hfin : r.finalized = false) :
    findRecord (runPayroll s m y).1 e.id m y = some (finalizeRecord e r) := by
  unfold findRecord findEmployee at *
  unfold runPayroll
  simp only
  rw [findRecordIn_loop, he, hr]
  simp [finalizeOnce, hfin]

theorem printPayslip_some (s : PayrollSystem) (id m y : Int) (e : Employee) (r : PayrollRecord)
    (he : findEmployee s id = some e) (hr : findRecord s id m y = some r)
    (hfin : r.finalized = true) :
    printPayslip s id m y = PayslipResult.payslip
      { fullName := e.fullName, position := e.position, monthlySalary := e.monthlySalary,
        regularHours := r.regularHours, overtimeHours := r.overtimeHours,
        allowancesSum := accumulateAmounts r.allowances,
        deductionsSum := accumulateAmounts r.deductions,
        tax := taxOf e r, netPay := r.netPay } := by
  unfold printPayslip findRecordConst
  unfold findRecord at hr
  rw [he]
  simp only [hr, hfin]
  rfl

theorem printPayslip_payslip_inv (s : PayrollSystem) (id m y : Int) (view : Payslip)
    (h : printPayslip s id m y = PayslipResult.payslip view) :
    ∃ e r, findEmployee s id = some e ∧ findRecord s id m y = some r ∧ r.finalized = true
      ∧ view = { fullName := e.fullName, position := e.position,
                 monthlySalary := e.monthlySalary,
                 regularHours := r.regularHours, overtimeHours := r.overtimeHours,
                 allowancesSum := accumulateAmounts r.allowances,
                 deductionsSum := accumulateAmounts r.deductions,
                 tax := taxOf e r, netPay := r.netPay } := by
  cases he : findEmployee s id with
  | none => simp [printPayslip, he] at h
  | some e =>
    cases hr : findRecord s id m y with
    | none =>
      simp [printPayslip, he, findRecordConst, show findRecordIn s.payroll_ id m y = none from hr]
        at h
    | some r =>
      cases hfin : r.finalized
      · simp [printPayslip, he, findRecordConst,
          show findRecordIn s.payroll_ id m y = some r from hr, hfin] at h
      · have := printPayslip_some s id m y e r he hr hfin
        rw [this] at h
        exact ⟨e, r, rfl, rfl, hfin, (PayslipResult.payslip.inj h).symm⟩

/-- C13: the tax on every payslip is the tax `runPayroll` computes (gross ×
tax rate) from the same employee and record; and for a record `runPayroll`
has just finalized for the first roster entry with the id, the payslip
printed right after shows a net pay equal to (salary + regular pay +
overtime pay + sum of allowances) − tax − sum of deductions built from the
values on the payslip. -/
theorem payslip_agrees_with_runPayroll (s : PayrollSystem) (m y : Int) (e : Employee)
    (r : PayrollRecord) (he : findEmployee s e.id = some e)
    (hr : findRecord s e.id m y = some r) (hfin : r.finalized = false) :
    (∀ (s0 : PayrollSystem) (id0 m0 y0 : Int) (view0 : Payslip),
      printPayslip s0 id0 m0 y0 = PayslipResult.payslip view0 →
        ∃ e0 r0, findEmployee s0 id0 = some e0 ∧ findRecord s0 id0 m0 y0 = some r0
          ∧ view0.tax = grossOf e0 r0 * e0.taxRate)
    ∧ ∃ view, printPayslip (runPayroll s m y).1 e.id m y = PayslipResult.payslip view
        ∧ view.tax = grossOf e r * e.taxRate
        ∧ view.netPay
            = (view.monthlySalary + view.regularHours * e.hourlyRate
                + view.overtimeHours * e.hourlyRate * (3 / 2) + view.allowancesSum)
              - view.tax - view.deductionsSum := by
  constructor
  · intro s0 id0 m0 y0 view0 h0
    obtain ⟨e0, r0, h1, h2, _, h4⟩ := printPayslip_payslip_inv s0 id0 m0 y0 view0 h0
    exact ⟨e0, r0, h1, h2, by rw [h4]; rfl⟩
  · have h1 := findRecord_runPayroll_first s m y e r he hr hfin
    have h2 : findEmployee (runPayroll s m y).1 e.id = some e := he
    refine ⟨_, printPayslip_some _ e.id m y e _ h2 h1 rfl, ?_, ?_⟩
    · rfl
    · simp [finalizeRecord, netOf, taxOf, grossOf]

/-- Witness for C13: the payslip of the scenario right after
`runPayroll(5, 2024)`. -/
theorem payslip_agrees_with_runPayroll_witness :
    findEmployee scenarioState scenarioEmployee.id = some scenarioEmployee
    ∧ findRecord scenarioState scenarioEmployee.id 5 2024 = some scenarioRecord
    ∧ scenarioRecord.finalized = false
    ∧ ∃ view, printPayslip (runPayroll scenarioState 5 2024).1 scenarioEmployee.id 5 2024
          = PayslipResult.payslip view
        ∧ view.tax = grossOf scenarioEmployee scenarioRecord * scenarioEmployee.taxRate
        ∧ view.netPay
            = (view.monthlySalary + view.regularHours * scenarioEmployee.hourlyRate
                + view.overtimeHours * scenarioEmployee.hourlyRate * (3 / 2)
                + view.allowancesSum)
              - view.tax - view.deductionsSum :=
  ⟨scenarioState_findEmployee, scenarioState_findRecord, rfl,
    (payslip_agrees_with_runPayroll scenarioState 5 2024 scenarioEmployee scenarioRecord
      scenarioState_findEmployee scenarioState_findRecord rfl).2⟩

/-! ## C14: duplicate ids -/

theorem runPayrollLoop_outcome_get (m y : Int) (es : List Employee)
    (p : Int → Option (List PayrollRecord)) (j : Nat) (e : Employee) (hj : es[j]? = some e) :
    (runPayrollLoop m y es p).2[j]?
      = some (runPayrollStep m y e (runPayrollLoop m y (es.take j) p).1).2 := by
  induction es generalizing p j with
  | nil => simp at hj
  | cons a es ih =>
    cases j with
    | zero =>
      simp only [List.getElem?_cons_zero, Option.some.injEq] at hj
      subst hj
      simp [runPayrollLoop]
    | succ j =>
      simp only [List.getElem?_cons_succ] at hj
      simp only [runPayrollLoop, List.getElem?_cons_succ, List.take_succ_cons]
      exact ih _ j hj

theorem findEmployeeIn_of_first (es : List Employee) (id : Int) (i : Nat) (e1 : Employee)
    (hi : es[i]? = some e1) (hid : e1.id = id)
    (hfirst : ∀ j e, j < i → es[j]? = some e → e.id ≠ id) :
    findEmployeeIn es id = some e1 := by
  unfold findEmployeeIn
  induction es generalizing i with
  | nil => simp at hi
  | cons a es ih =>
    cases i with
    | zero =>
      simp only [List.getElem?_cons_zero, Option.some.injEq] at hi
      subst hi
      simp [hid]
    | succ i =>
      simp only [List.getElem?_cons_succ] at hi
      have ha : a.id ≠ id := hfirst 0 a (Nat.succ_pos i) (by simp)
      have hb : (a.id == id) = false := by simpa using ha
      simp only [List.find?_cons, hb]
      apply ih i hi
      intro j e hj he
      exact hfirst (j + 1) e (Nat.succ_lt_succ hj) (by simpa using he)

theorem findEmployeeIn_take_none (es : List Employee) (id : Int) (i : Nat)
    (hfirst : ∀ j e, j < i → es[j]? = some e → e.id ≠ id) :
    findEmployeeIn (es.take i) id = none := by
  rw [findEmployeeIn_eq_none_iff]
  intro e he
  obtain ⟨j, hj⟩ := List.mem_iff_getElem?.mp he
  have hlt : j < i := by
    by_contra hge
    have hlen : (es.take i).length ≤ j := by
      rw [List.length_take]
      omega
    rw [List.getElem?_eq_none hlen] at hj
    cases hj
  rw [List.getElem?_take, if_pos hlt] at hj
  exact hfirst j e hlt hj

theorem findEmployeeIn_take_some (es : List Employee) (id : Int) (i j : Nat) (e1 : Employee)
    (hi : es[i]? = some e1) (hid : e1.id = id)
    (hfirst : ∀ j e, j < i → es[j]? = some e → e.id ≠ id) (hij : i < j) :
    findEmployeeIn (es.take j) id = some e1 := by
  apply findEmployeeIn_of_first _ id i e1 _ hid
  · intro k e hk he
    rw [List.getElem?_take, if_pos (by omega)] at he
    exact hfirst k e hk he
  · rw [List.getElem?_take, if_pos hij]
    exact hi

/-- C14: duplicate ids are accepted and the first match wins. `addEmployee`
appends whatever it is given. When `e1`, at position `i`, is the earliest
roster entry with the id and the record of `(id, m, y)` is not finalized,
one `runPayroll(m, y)` stores `grossPay` and `netPay` computed from the
salary, rate and tax rate of `e1`, prints the computed line for `e1` and
"already finalized" for every later entry with the id, and `printPayslip`
then shows the name, position, salary and tax of `e1`. -/
theorem duplicate_ids_first_wins (s : PayrollSystem) (m y id : Int) (r : PayrollRecord)
    (i : Nat) (e1 : Employee)
    (hi : s.employees_[i]? = some e1) (hid : e1.id = id)
    (hfirst : ∀ j e, j < i → s.employees_[j]? = some e → e.id ≠ id)
    (hr : findRecord s id m y = some r) (hfin : r.finalized = false) :
    (∀ e0 : Employee, (addEmployee s e0).employees_ = s.employees_ ++ [e0])
    ∧ findRecord (runPayroll s m y).1 id m y
        = some { r with
            grossPay := e1.monthlySalary + r.regularHours * e1.hourlyRate
              + r.overtimeHours * e1.hourlyRate * (3 / 2) + accumulateAmounts r.allowances,
            netPay := (e1.monthlySalary + r.regularHours * e1.hourlyRate
                + r.overtimeHours * e1.hourlyRate * (3 / 2) + accumulateAmounts r.allowances)
              - (e1.monthlySalary + r.regularHours * e1.hourlyRate
                + r.overtimeHours * e1.hourlyRate * (3 / 2) + accumulateAmounts r.allowances)
                * e1.taxRate
              - accumulateAmounts r.deductions,
            finalized := true }
    ∧ (runPayroll s m y).2[i]?
        = some (PayrollOutcome.computed e1 r.regularHours r.overtimeHours
            (accumulateAmounts r.allowances) (accumulateAmounts r.deductions)
            (taxOf e1 r) (netOf e1 r))
    ∧ (∀ (j : Nat) (e2 : Employee), i < j → s.employees_[j]? = some e2 → e2.id = id →
        (runPayroll s m y).2[j]? = some (PayrollOutcome.alreadyFinalized e2))
    ∧ printPayslip (runPayroll s m y).1 id m y = PayslipResult.payslip
        { fullName := e1.fullName, position := e1.position,
          monthlySalary := e1.monthlySalary,
          regularHours := r.regularHours, overtimeHours := r.overtimeHours,
          allowancesSum := accumulateAmounts r.allowances,
          deductionsSum := accumulateAmounts r.deductions,
          tax := (e1.monthlySalary + r.regularHours * e1.hourlyRate
              + r.overtimeHours * e1.hourlyRate * (3 / 2) + accumulateAmounts r.allowances)
            * e1.taxRate,
          netPay := netOf e1 r } := by
  have hfe : findEmployee s e1.id = some e1 := by
    rw [hid]
    exact findEmployeeIn_of_first _ id i e1 hi hid hfirst
  have hr1 : findRecord s e1.id m y = some r := by rw [hid]; exact hr
  have hrec := findRecord_runPayroll_first s m y e1 r hfe hr1 hfin
  rw [hid] at hrec
  refine ⟨fun _ => rfl, ?_, ?_, ?_, ?_⟩
  · rw [hrec]
    rfl
  · change (runPayrollLoop m y s.employees_ s.payroll_).2[i]? = _
    rw [runPayrollLoop_outcome_get m y _ _ i e1 hi]
    have hf : findRecordIn (runPayrollLoop m y (s.employees_.take i) s.payroll_).1 e1.id m y
        = some r := by
      rw [findRecordIn_loop, hid, findEmployeeIn_take_none _ id i hfirst]
      exact hr
    simp [runPayrollStep, hf, hfin]
  · intro j e2 hij hj hid2
    change (runPayrollLoop m y s.employees_ s.payroll_).2[j]? = _
    rw [runPayrollLoop_outcome_get m y _ _ j e2 hj]
    have hf : findRecordIn (runPayrollLoop m y (s.employees_.take j) s.payroll_).1 e2.id m y
        = some (finalizeOnce e1 r) := by
      rw [findRecordIn_loop, hid2, findEmployeeIn_take_some _ id i j e1 hi hid hfirst hij]
      simp only
      rw [show findRecordIn s.payroll_ id m y = some r from hr]
      rfl
    simp [runPayrollStep, hf, finalizeOnce_finalized]
  · have hfe2 : findEmployee (runPayroll s m y).1 id = some e1 := by
      rw [← hid]
      exact hfe
    rw [printPayslip_some _ id m y e1 _ hfe2 hrec rfl]
    rfl

/-- Witness for C14: two entries with id 1, the scenario employee first. -/
theorem duplicate_ids_first_wins_witness :
    twinFirstState.employees_[0]? = some scenarioEmployee
    ∧ scenarioEmployee.id = 1
    ∧ twinFirstState.employees_[1]? = some scenarioEmployeeTwin
    ∧ scenarioEmployeeTwin.id = 1
    ∧ findRecord twinFirstState 1 5 2024
        = some { month := 5, year := 2024, regularHours := 160, overtimeHours := 10 }
    ∧ (runPayroll twinFirstState 5 2024).2[0]?
        = some (PayrollOutcome.computed scenarioEmployee 160 10 0 0 (862875 / 100)
            (3562125 / 100))
    ∧ (runPayroll twinFirstState 5 2024).2[1]?
        = some (PayrollOutcome.alreadyFinalized scenarioEmployeeTwin) := by
  have h0 : twinFirstState.employees_[0]? = some scenarioEmployee := rfl
  have h1 : twinFirstState.employees_[1]? = some scenarioEmployeeTwin := rfl
  have hr : findRecord twinFirstState 1 5 2024
      = some { month := 5, year := 2024, regularHours := 160, overtimeHours := 10 } := by
    simp [twinFirstState, runOps, applyOp, addEmployee, recordWorkHours, ensureRecord,
      PayrollSystem.empty, writeRecordIn, modifyFirst, samePeriod, findRecord, findRecordIn]
  have h := duplicate_ids_first_wins twinFirstState 5 2024 1 _ 0 scenarioEmployee h0 rfl
    (fun j e hj _ => absurd hj (Nat.not_lt_zero j)) hr rfl
  refine ⟨h0, rfl, h1, rfl, hr, ?_, h.2.2.2.1 1 scenarioEmployeeTwin (by decide) h1 rfl⟩
  rw [h.2.2.1]
  simp [taxOf, netOf, grossOf, accumulateAmounts, scenarioEmployee]
  norm_num

/-! ## C15: `runPayroll` finalizes the registered ids -/

theorem mem_modifyFirst_of_nodup (m y : Int) (f : PayrollRecord → PayrollRecord)
    (rs : List PayrollRecord) (hn : (rs.map periodOf).Nodup) (x : PayrollRecord)
    (hx : x ∈ modifyFirst (samePeriod m y) f rs) (hsp : samePeriod m y x = true) :
    ∃ r0, x = f r0 := by
  induction rs with
  | nil => simp [modifyFirst] at hx
  | cons a rs ih =>
    simp only [List.map_cons, List.nodup_cons] at hn
    cases ha : samePeriod m y a
    · simp only [modifyFirst, ha, Bool.false_eq_true, if_false, List.mem_cons] at hx
      rcases hx with h1 | h1
      · rw [h1, ha] at hsp
        cases hsp
      · exact ih hn.2 h1
    · simp only [modifyFirst, ha, if_true, List.mem_cons] at hx
      rcases hx with h1 | h1
      · exact ⟨a, h1⟩
      · exfalso
        apply hn.1
        rw [samePeriod_iff] at ha hsp
        have : periodOf a = periodOf x := by
          simp [periodOf, ha.1, ha.2, hsp.1, hsp.2]
        rw [this]
        exact List.mem_map_of_mem periodOf h1

theorem findEmployeeIn_some_of_registered (es : List Employee) (id : Int)
    (h : ∃ e ∈ es, e.id = id) : ∃ e0, findEmployeeIn es id = some e0 := by
  cases hf : findEmployeeIn es id with
  | some e0 => exact ⟨e0, rfl⟩
  | none =>
    obtain ⟨e, he1, he2⟩ := h
    exact absurd he2 ((findEmployeeIn_eq_none_iff es id).mp hf e he1)

theorem finalizedRegistered_accumulate (s : PayrollSystem) (id m y : Int)
    (f : PayrollRecord → PayrollRecord) (hf : ∀ r, (f r).finalized = r.finalized)
    (h : FinalizedRegistered s) : FinalizedRegistered (accumulate s id m y f) := by
  intro k rs r hk hr hfin
  rw [accumulate_payroll] at hk
  change ∃ e ∈ s.employees_, e.id = k
  by_cases hkid : k = id
  · subst hkid
    simp only [if_true, Option.some.injEq] at hk
    subst hk
    have hold : ∀ r0, r0 ∈ (s.payroll_ k).getD [] → r0.finalized = true →
        ∃ e ∈ s.employees_, e.id = k := by
      intro r0 hmem h1
      cases hp : s.payroll_ k with
      | none => simp [hp] at hmem
      | some rs0 =>
        rw [hp] at hmem
        exact h k rs0 r0 hp hmem h1
    rcases mem_upsert m y f _ r hr with h1 | ⟨r0, h1, h2⟩ | ⟨_, h2⟩
    · exact hold r h1 hfin
    · rw [h2, hf] at hfin
      exact hold r0 (List.mem_of_find?_eq_some h1) hfin
    · rw [h2, hf] at hfin
      cases hfin
  · simp only [hkid, if_false] at hk
    exact h k rs r hk hr hfin

theorem finalizedRegistered_applyOp (s : PayrollSystem) (op : Op)
    (h : FinalizedRegistered s) : FinalizedRegistered (applyOp s op) := by
  cases op with
  | addEmployee e0 =>
    intro k rs r hk hr hfin
    obtain ⟨e, he, hid⟩ := h k rs r hk hr hfin
    exact ⟨e, List.mem_append_left _ he, hid⟩
  | printPayslip id m y => exact h
  | recordWorkHours id m y a b =>
    exact finalizedRegistered_accumulate s id m y
      (fun record => { record with regularHours := record.regularHours + a,
                                   overtimeHours := record.overtimeHours + b })
      (fun _ => rfl) h
  | addAllowance id m y a =>
    exact finalizedRegistered_accumulate s id m y
      (fun record => { record with allowances := record.allowances ++ [a] })
      (fun _ => rfl) h
  | addDeduction id m y a =>
    exact finalizedRegistered_accumulate s id m y
      (fun record => { record with deductions := record.deductions ++ [a] })
      (fun _ => rfl) h
  | runPayroll m y =>
    intro k rs r hk hr hfin
    change (runPayrollLoop m y s.employees_ s.payroll_).1 k = some rs at hk
    change ∃ e ∈ s.employees_, e.id = k
    rw [runPayrollLoop_fst] at hk
    cases hfe : findEmployeeIn s.employees_ k with
    | none =>
      rw [hfe] at hk
      exact h k rs r hk hr hfin
    | some e =>
      refine ⟨e, List.mem_of_find?_eq_some hfe, ?_⟩
      simpa using List.find?_some hfe

/-- C15: after `runPayroll(m, y)` the record of `(id, m, y)` of every
registered id is finalized (the record `findRecord` returns, and, when no
vector holds two records of one period, every record of the period in the
vector of the id); the vector of an id that no roster entry has is left
exactly as it was; and in every reachable state every finalized record is
stored under the id of some roster entry. -/
theorem runPayroll_finalizes_registered (s : PayrollSystem) (m y : Int) :
    (∀ (id : Int) (r : PayrollRecord), (∃ e ∈ s.employees_, e.id = id) →
      findRecord (runPayroll s m y).1 id m y = some r → r.finalized = true)
    ∧ ((∀ (k : Int) (rs : List PayrollRecord), s.payroll_ k = some rs →
          (rs.map (fun r => (r.month, r.year))).Nodup) →
        ∀ (id : Int) (rs : List PayrollRecord) (r : PayrollRecord),
          (∃ e ∈ s.employees_, e.id = id) → (runPayroll s m y).1.payroll_ id = some rs →
            r ∈ rs → r.month = m → r.year = y → r.finalized = true)
    ∧ (∀ id : Int, (∀ e ∈ s.employees_, e.id ≠ id) →
        (runPayroll s m y).1.payroll_ id = s.payroll_ id)
    ∧ (Reachable s →
        ∀ (id : Int) (rs : List PayrollRecord) (r : PayrollRecord),
          s.payroll_ id = some rs → r ∈ rs → r.finalized = true →
            ∃ e ∈ s.employees_, e.id = id) := by
  refine ⟨?_, ?_, ?_, ?_⟩
  · intro id r hreg hr
    obtain ⟨e0, he0⟩ := findEmployeeIn_some_of_registered _ id hreg
    change findRecordIn (runPayrollLoop m y s.employees_ s.payroll_).1 id m y = some r at hr
    rw [findRecordIn_loop, he0] at hr
    cases hf : findRecordIn s.payroll_ id m y with
    | none => simp [hf] at hr
    | some r0 =>
      simp only [hf, Option.map_some', Option.some.injEq] at hr
      rw [← hr]
      exact finalizeOnce_finalized e0 r0
  · intro hu id rs r hreg hk hr hm hy
    obtain ⟨e0, he0⟩ := findEmployeeIn_some_of_registered _ id hreg
    change (runPayrollLoop m y s.employees_ s.payroll_).1 id = some rs at hk
    rw [runPayrollLoop_fst, he0] at hk
    cases hp : s.payroll_ id with
    | none => simp [hp] at hk
    | some rs0 =>
      simp only [hp, Option.map_some', Option.some.injEq] at hk
      subst hk
      obtain ⟨r0, h0⟩ := mem_modifyFirst_of_nodup m y (finalizeOnce e0) rs0 (hu id rs0 hp) r hr
        ((samePeriod_iff m y r).mpr ⟨hm, hy⟩)
      rw [h0]
      exact finalizeOnce_finalized e0 r0
  · intro id hnone
    change (runPayrollLoop m y s.employees_ s.payroll_).1 id = s.payroll_ id
    rw [runPayrollLoop_fst, (findEmployeeIn_eq_none_iff _ id).mpr hnone]
  · intro hreach
    exact reachable_induction FinalizedRegistered
      (fun k rs r hk => by simp [PayrollSystem.empty] at hk)
      (fun s0 op _ ih => finalizedRegistered_applyOp s0 op ih) s hreach

theorem scenario_final_findRecord :
    findRecord (runPayroll scenarioState 5 2024).1 1 5 2024 = some scenarioFinalRecord := by
  unfold findRecord findRecordIn
  rw [scenario_final_payroll]
  simp [samePeriod, scenarioFinalRecord, scenarioRecord]

theorem scenarioState_registered : ∃ e ∈ scenarioState.employees_, e.id = 1 :=
  ⟨scenarioEmployee, by
    simp [scenarioState, addDeduction, addAllowance, recordWorkHours, addEmployee,
      ensureRecord, PayrollSystem.empty], rfl⟩

/-- Witness for C15: the scenario, whose employee 1 is registered, and the
reachable state with hours recorded after `runPayroll`. -/
theorem runPayroll_finalizes_registered_witness :
    (∃ e ∈ scenarioState.employees_, e.id = 1)
    ∧ findRecord (runPayroll scenarioState 5 2024).1 1 5 2024 = some scenarioFinalRecord
    ∧ scenarioFinalRecord.finalized = true
    ∧ Reachable lateEditState
    ∧ (∀ (id : Int) (rs : List PayrollRecord) (r : PayrollRecord),
        lateEditState.payroll_ id = some rs → r ∈ rs → r.finalized = true →
          ∃ e ∈ lateEditState.employees_, e.id = id) :=
  ⟨scenarioState_registered, scenario_final_findRecord,
    (runPayroll_finalizes_registered scenarioState 5 2024).1 1 scenarioFinalRecord
      scenarioState_registered scenario_final_findRecord,
    ⟨_, rfl⟩,
    (runPayroll_finalizes_registered lateEditState 5 2024).2.2.2 ⟨_, rfl⟩⟩

/-! ## C16: frame of the accumulation operations -/

theorem getElem_upsert_other (m y : Int) (f : PayrollRecord → PayrollRecord)
    (rs : List PayrollRecord) (i : Nat) (r : PayrollRecord) (hi : rs[i]? = some r)
    (hne : ¬ (r.month = m ∧ r.year = y)) : (upsert m y f rs)[i]? = some r := by
  unfold upsert
  cases hfind : rs.find? (samePeriod m y) with
  | none =>
    simp only
    have hlt : i < rs.length := by
      by_contra hge
      rw [List.getElem?_eq_none (by omega)] at hi
      cases hi
    rw [List.getElem?_append_left hlt, hi]
  | some r0 =>
    simp only
    rcases getElem_modifyFirst (samePeriod m y) f rs i with h | ⟨r1, h1, h2, _⟩
    · rw [h, hi]
    · exfalso
      rw [hi] at h1
      cases h1
      have := List.find?_some h2
      rw [samePeriod_iff] at this
      exact hne this

theorem accumulate_frame (s : PayrollSystem) (id m y : Int) (f : PayrollRecord → PayrollRecord)
    (hf : ∀ r, (f r).month = r.month ∧ (f r).year = r.year) :
    AccumulationFrame s (accumulate s id m y f) id m y f := by
  refine ⟨rfl, ?_, ?_, ?_, ?_⟩
  · intro k hk
    rw [accumulate_payroll]
    simp only [hk, if_false]
  · intro k m2 y2 hne
    rw [findRecord_accumulate s id m y f hf]
    simp only [hne, if_false]
  · intro rs i r hp hi hne
    rw [accumulate_payroll]
    simp only [if_true, hp, Option.getD_some]
    exact ⟨_, rfl, getElem_upsert_other m y f rs i r hi hne⟩
  · rw [findRecord_accumulate s id m y f hf]
    simp

/-- C16: `recordWorkHours(id, m, y, a, b)` changes only the record of
`(id, m, y)`, adding `a` and `b` to its hours and keeping its allowances,
deductions, `grossPay`, `netPay` and flag; `addAllowance` only pushes the
allowance at the back of that record's allowance list and `addDeduction`
only pushes the deduction at the back of its deduction list; the roster and
every other record are left as they were. -/
theorem accumulation_frame (s : PayrollSystem) (id m y : Int) (a b : ℚ) (al d : Adjustment) :
    AccumulationFrame s (recordWorkHours s id m y a b) id m y (fun r => withHoursAdded r a b)
    ∧ AccumulationFrame s (addAllowance s id m y al) id m y (fun r => withAllowance r al)
    ∧ AccumulationFrame s (addDeduction s id m y d) id m y (fun r => withDeduction r d) :=
  ⟨accumulate_frame s id m y (fun r => withHoursAdded r a b) (fun _ => ⟨rfl, rfl⟩),
    accumulate_frame s id m y (fun r => withAllowance r al) (fun _ => ⟨rfl, rfl⟩),
    accumulate_frame s id m y (fun r => withDeduction r d) (fun _ => ⟨rfl, rfl⟩)⟩

/-! ## C17: frame of `runPayroll` -/

theorem runPayrollFrame_self (m y : Int) (r : PayrollRecord) : RunPayrollFrame m y r r :=
  ⟨rfl, rfl, rfl, rfl, rfl, rfl, fun h => absurd rfl h⟩

theorem runPayrollFrame_finalizeOnce (m y : Int) (e : Employee) (r : PayrollRecord)
    (h : samePeriod m y r = true) : RunPayrollFrame m y r (finalizeOnce e r) := by
  rw [samePeriod_iff] at h
  cases hfin : r.finalized
  · refine ⟨?_, ?_, ?_, ?_, ?_, ?_, fun _ => ⟨h.1, h.2, hfin⟩⟩ <;>
      simp [finalizeOnce, hfin, finalizeRecord]
  · rw [finalizeOnce_of_finalized e r hfin]
    exact runPayrollFrame_self m y r

theorem pointwise_self {α : Type} (R : α → α → Prop) (hrefl : ∀ r, R r r) (rs : List α) :
    List.Forall₂ R rs rs := by
  induction rs with
  | nil => exact List.Forall₂.nil
  | cons b rs ih => exact List.Forall₂.cons (hrefl b) ih

theorem pointwise_modifyFirst {α : Type} (R : α → α → Prop) (p : α → Bool) (f : α → α)
    (hrefl : ∀ r, R r r) (hf : ∀ r, p r = true → R r (f r)) (rs : List α) :
    List.Forall₂ R rs (modifyFirst p f rs) := by
  induction rs with
  | nil => exact List.Forall₂.nil
  | cons a rs ih =>
    cases ha : p a
    · simp only [modifyFirst, ha, Bool.false_eq_true, if_false]
      exact List.Forall₂.cons (hrefl a) ih
    · simp only [modifyFirst, ha, if_true]
      exact List.Forall₂.cons (hf a ha) (pointwise_self R hrefl rs)

/-- C17: `runPayroll(m, y)` leaves the roster as it is; the map keeps its
keys and every vector its length, and position by position every record
keeps its month, year, hours, allowances and deductions; a record is changed
at all only when it is a record of the period `(m, y)` that was not
finalized, so only `grossPay`, `netPay` and `finalized` of such records can
change. -/
theorem runPayroll_frame (s : PayrollSystem) (m y : Int) :
    (runPayroll s m y).1.employees_ = s.employees_
    ∧ ∀ k : Int,
        (s.payroll_ k = none ∧ (runPayroll s m y).1.payroll_ k = none)
        ∨ ∃ rs rs2, s.payroll_ k = some rs ∧ (runPayroll s m y).1.payroll_ k = some rs2
            ∧ List.Forall₂ (fun r r2 =>
                r2.month = r.month ∧ r2.year = r.year ∧ r2.regularHours = r.regularHours
                ∧ r2.overtimeHours = r.overtimeHours ∧ r2.allowances = r.allowances
                ∧ r2.deductions = r.deductions
                ∧ (r2 ≠ r → r.month = m ∧ r.year = y ∧ r.finalized = false)) rs rs2 := by
  refine ⟨rfl, ?_⟩
  intro k
  change (s.payroll_ k = none ∧ (runPayrollLoop m y s.employees_ s.payroll_).1 k = none)
    ∨ ∃ rs rs2, s.payroll_ k = some rs
        ∧ (runPayrollLoop m y s.employees_ s.payroll_).1 k = some rs2
        ∧ List.Forall₂ (RunPayrollFrame m y) rs rs2
  rw [runPayrollLoop_fst]
  cases hp : s.payroll_ k with
  | none =>
    left
    cases findEmployeeIn s.employees_ k <;> exact ⟨rfl, rfl⟩
  | some rs =>
    right
    cases findEmployeeIn s.employees_ k with
    | none =>
      exact ⟨rs, rs, rfl, rfl, pointwise_self _ (runPayrollFrame_self m y) rs⟩
    | some e =>
      exact ⟨rs, _, rfl, rfl, pointwise_modifyFirst (RunPayrollFrame m y) _ _
        (runPayrollFrame_self m y) (fun r h => runPayrollFrame_finalizeOnce m y e r h) rs⟩

/-! ## C18: an inconsistent payslip -/

theorem lateEditState_findRecord :
    findRecord lateEditState 1 5 2024
      = some { month := 5, year := 2024, regularHours := 161, overtimeHours := 10,
               grossPay := 44250, netPay := 3562125 / 100, finalized := true } := by
  unfold findRecord findRecordIn
  rw [lateEditState_payroll]
  simp [samePeriod]

theorem lateEditState_findEmployee :
    findEmployee lateEditState 1 = some scenarioEmployee := by
  simp [findEmployee, findEmployeeIn, lateEditState, runOps, applyOp, addEmployee,
    PayrollSystem.empty, recordWorkHours, ensureRecord, runPayroll, scenarioEmployee]

/-- C18: a payslip can contradict itself. After register, 160 + 10 hours,
`runPayroll(5, 2024)` and one more regular hour, `printPayslip(1, 5, 2024)`
succeeds and shows net pay 35621.25, while salary + regular pay + overtime
pay + allowances − tax − deductions from the numbers on the same payslip is
35742. -/
theorem payslip_can_be_inconsistent :
    Reachable lateEditState
    ∧ ∃ view, printPayslip lateEditState 1 5 2024 = PayslipResult.payslip view
        ∧ view.netPay = 3562125 / 100
        ∧ (view.monthlySalary + view.regularHours * scenarioEmployee.hourlyRate
              + view.overtimeHours * scenarioEmployee.hourlyRate * (3 / 2)
              + view.allowancesSum) - view.tax - view.deductionsSum = 35742
        ∧ view.netPay
            ≠ (view.monthlySalary + view.regularHours * scenarioEmployee.hourlyRate
                + view.overtimeHours * scenarioEmployee.hourlyRate * (3 / 2)
                + view.allowancesSum) - view.tax - view.deductionsSum := by
  refine ⟨⟨_, rfl⟩, _, printPayslip_some lateEditState 1 5 2024 scenarioEmployee _
    lateEditState_findEmployee lateEditState_findRecord rfl, rfl, ?_, ?_⟩
  · simp [taxOf, grossOf, accumulateAmounts, scenarioEmployee]
    norm_num
  · simp [taxOf, grossOf, accumulateAmounts, scenarioEmployee]
    norm_num

/-! ## C19: bounds of the pay formula -/

theorem accumulateAmounts_nonneg (l : List Adjustment) (h : ∀ a ∈ l, 0 ≤ a.amount) :
    0 ≤ accumulateAmounts l := by
  rw [accumulateAmounts_eq_sum]
  apply List.sum_nonneg
  intro x hx
  obtain ⟨a, ha, rfl⟩ := List.mem_map.mp hx
  exact h a ha

/-- C19: with salary, rate, hours and all adjustment amounts non-negative
and the tax rate between 0 and 1, the values `runPayroll` computes satisfy
gross ≥ salary, 0 ≤ tax ≤ gross and net ≤ gross; and net is negative for
some such input, a salary of 100 with a deduction of 200. -/
theorem pay_bounds (e : Employee) (r : PayrollRecord)
    (hs : 0 ≤ e.monthlySalary) (hrate : 0 ≤ e.hourlyRate)
    (ht0 : 0 ≤ e.taxRate) (ht1 : e.taxRate ≤ 1)
    (hh : 0 ≤ r.regularHours) (ho : 0 ≤ r.overtimeHours)
    (ha : ∀ a ∈ r.allowances, 0 ≤ a.amount) (hd : ∀ d ∈ r.deductions, 0 ≤ d.amount) :
    e.monthlySalary ≤ grossOf e r ∧ 0 ≤ taxOf e r ∧ taxOf e r ≤ grossOf e r
    ∧ netOf e r ≤ grossOf e r
    ∧ ∃ (e0 : Employee) (r0 : PayrollRecord),
        0 ≤ e0.monthlySalary ∧ 0 ≤ e0.hourlyRate ∧ 0 ≤ e0.taxRate ∧ e0.taxRate ≤ 1
        ∧ 0 ≤ r0.regularHours ∧ 0 ≤ r0.overtimeHours
        ∧ (∀ a ∈ r0.allowances, 0 ≤ a.amount) ∧ (∀ d ∈ r0.deductions, 0 ≤ d.amount)
        ∧ netOf e0 r0 < 0 := by
  have hA := accumulateAmounts_nonneg r.allowances ha
  have hD := accumulateAmounts_nonneg r.deductions hd
  have h1 : 0 ≤ r.regularHours * e.hourlyRate := mul_nonneg hh hrate
  have h2 : 0 ≤ r.overtimeHours * e.hourlyRate * (3 / 2) :=
    mul_nonneg (mul_nonneg ho hrate) (by norm_num)
  have hg : e.monthlySalary ≤ grossOf e r := by
    unfold grossOf
    linarith
  have hg0 : 0 ≤ grossOf e r := le_trans hs hg
  have htax0 : 0 ≤ taxOf e r := mul_nonneg hg0 ht0
  have htax1 : taxOf e r ≤ grossOf e r := mul_le_of_le_one_right hg0 ht1
  refine ⟨hg, htax0, htax1, ?_, lowPayEmployee, highDeductionRecord, ?_⟩
  · unfold netOf
    linarith
  · refine ⟨?_, ?_, ?_, ?_, ?_, ?_, ?_, ?_, ?_⟩ <;>
      simp [lowPayEmployee, highDeductionRecord, netOf, taxOf, grossOf, accumulateAmounts]
    norm_num

/-- Witness for C19: the scenario has gross 44750, tax 8726.25 and net
35823.75; a salary of 100 with a deduction of 200 has net −100. -/
theorem pay_bounds_witness :
    (0 ≤ scenarioEmployee.monthlySalary ∧ 0 ≤ scenarioEmployee.hourlyRate
      ∧ 0 ≤ scenarioEmployee.taxRate ∧ scenarioEmployee.taxRate ≤ 1
      ∧ 0 ≤ scenarioRecord.regularHours ∧ 0 ≤ scenarioRecord.overtimeHours
      ∧ (∀ a ∈ scenarioRecord.allowances, 0 ≤ a.amount)
      ∧ (∀ d ∈ scenarioRecord.deductions, 0 ≤ d.amount))
    ∧ (scenarioEmployee.monthlySalary ≤ grossOf scenarioEmployee scenarioRecord
      ∧ 0 ≤ taxOf scenarioEmployee scenarioRecord
      ∧ taxOf scenarioEmployee scenarioRecord ≤ grossOf scenarioEmployee scenarioRecord
      ∧ netOf scenarioEmployee scenarioRecord ≤ grossOf scenarioEmployee scenarioRecord)
    ∧ grossOf scenarioEmployee scenarioRecord = 44750
    ∧ netOf lowPayEmployee highDeductionRecord = -100 := by
  have h1 : 0 ≤ scenarioEmployee.monthlySalary := by simp [scenarioEmployee]
  have h2 : 0 ≤ scenarioEmployee.hourlyRate := by simp [scenarioEmployee]
  have h3 : 0 ≤ scenarioEmployee.taxRate := by simp [scenarioEmployee]; norm_num
  have h4 : scenarioEmployee.taxRate ≤ 1 := by simp [scenarioEmployee]; norm_num
  have h5 : 0 ≤ scenarioRecord.regularHours := by simp [scenarioRecord]
  have h6 : 0 ≤ scenarioRecord.overtimeHours := by simp [scenarioRecord]
  have h7 : ∀ a ∈ scenarioRecord.allowances, 0 ≤ a.amount := by simp [scenarioRecord]
  have h8 : ∀ d ∈ scenarioRecord.deductions, 0 ≤ d.amount := by simp [scenarioRecord]
  have h := pay_bounds scenarioEmployee scenarioRecord h1 h2 h3 h4 h5 h6 h7 h8
  refine ⟨⟨h1, h2, h3, h4, h5, h6, h7, h8⟩, ⟨h.1, h.2.1, h.2.2.1, h.2.2.2.1⟩, ?_, ?_⟩
  · simp [grossOf, accumulateAmounts, scenarioRecord, scenarioEmployee]
    norm_num
  · simp [lowPayEmployee, highDeductionRecord, netOf, taxOf, grossOf, accumulateAmounts]
    norm_num

end Payroll
